import Mathlib

/-!
Verification development for the slmnetGPT autograd engine.

The source is a small JavaScript reverse-mode automatic-differentiation
library (Tensor.js, Ops.js, Layers.js, Losses.js, Optimizers.js).  We give a
shallow embedding of the parts the claims are about:

* Float32 values are modelled as rationals (`ℚ`); the value `-Infinity`,
  which the attention mask writes into score buffers, is modelled by `⊥` of
  `WithBot ℚ` (abbreviated `Val`).  `Math.exp`, `Math.log` and `Math.sqrt`
  are transcendental, so they are taken as function parameters of the
  embeddings that use them (cross-entropy, softmax, Adam); theorems hold for
  every choice of these parameters satisfying the stated positivity facts.
* Tensors of the runtime graph live in an arena (`GArena`): one node per
  `new Tensor(...)` object, in creation order.  Object identity in JS
  becomes the node index; the eager construction of the graph guarantees
  every context input has a smaller index than its node (`GWF`), which is
  how the DAG hypothesis of the backward pass is presented.
* A node's context stores the input indices together with the backward
  closure, modelled as a function from the upstream gradient to a list of
  per-input gradient contributions; the engine accumulates a contribution
  into an input's gradient exactly when that input has `requires_grad`,
  mirroring the `if (x.requires_grad) x.grad.data[i] += ...` pattern of
  every closure in Ops.js/Layers.js/Losses.js.
-/

namespace Slmnet

/-- Model of a Float32 value: a finite rational, or `⊥` for `-Infinity`
(written into attention scores by the causal mask).  `+Infinity`/`NaN` never
occur in the executions covered by the claims. -/
abbrev Val : Type := WithBot ℚ

/-- Read a (finite) Float32 value back as a rational; the default `0` is
only ever reached outside the executions covered by the claims. -/
def toQ (v : Val) : ℚ := v.unbot' 0

/-! ## Optimizers.js (v2, `src/unnamed/part_003`): `Adam.step`

Parameter tensors hold finite values, so this embedding works directly with
`ℚ` buffers.  `Math.sqrt` is the parameter `sqrt`. -/

/-- A parameter tensor as the optimizer sees it: its flat `data` buffer and
its optional gradient buffer (`p.grad` may be `null`). -/
structure AParam where
  data : Array ℚ
  grad : Option (Array ℚ)
deriving Repr, DecidableEq

/-- Adam hyperparameters (`learning_rate`, `beta1`, `beta2`, `epsilon`). -/
structure AdamCfg where
  lr : ℚ
  beta1 : ℚ
  beta2 : ℚ
  eps : ℚ
deriving Repr, DecidableEq

/-- The body of the innermost loop of `Adam.step` for one element: given the
step counter `t` (already incremented), the element's current data, first
and second moment and gradient, return the updated data and moments.
Mirrors lines 75-92 of `src/unnamed/part_003`. -/
def adamElem (sqrt : ℚ → ℚ) (cfg : AdamCfg) (t : ℕ) (pd m v g : ℚ) :
    ℚ × ℚ × ℚ :=
  let mt := cfg.beta1 * m + (1 - cfg.beta1) * g
  let vt := cfg.beta2 * v + (1 - cfg.beta2) * (g * g)
  let mhat := mt / (1 - cfg.beta1 ^ t)
  let vhat := vt / (1 - cfg.beta2 ^ t)
  (pd - cfg.lr * mhat / (sqrt vhat + cfg.eps), mt, vt)

/-- One parameter's update inside `Adam.step`: parameters whose `grad` is
`null` are skipped (their moment buffers are untouched); otherwise every
element is updated by `adamElem`. -/
def adamUpdate (sqrt : ℚ → ℚ) (cfg : AdamCfg) (t : ℕ) (p : AParam)
    (m v : Array ℚ) : AParam × Array ℚ × Array ℚ :=
  match p.grad with
  | none => (p, m, v)
  | some g =>
    let d := Array.ofFn fun i : Fin p.data.size =>
      (adamElem sqrt cfg t (p.data.getD i 0) (m.getD i 0) (v.getD i 0)
        (g.getD i 0)).1
    let m' := Array.ofFn fun i : Fin p.data.size =>
      (adamElem sqrt cfg t (p.data.getD i 0) (m.getD i 0) (v.getD i 0)
        (g.getD i 0)).2.1
    let v' := Array.ofFn fun i : Fin p.data.size =>
      (adamElem sqrt cfg t (p.data.getD i 0) (m.getD i 0) (v.getD i 0)
        (g.getD i 0)).2.2
    ({ p with data := d }, m', v')

/-- Pairwise update of the parameter list with its moment-buffer lists
(the `Map`s keyed by parameter object become lists parallel to the
parameter list). -/
def adamZip (sqrt : ℚ → ℚ) (cfg : AdamCfg) (t : ℕ) :
    List AParam → List (Array ℚ) → List (Array ℚ) →
    List (AParam × Array ℚ × Array ℚ)
  | p :: ps, mp :: ms, vp :: vs =>
    adamUpdate sqrt cfg t p mp vp :: adamZip sqrt cfg t ps ms vs
  | _, _, _ => []

/-- The whole `Adam.step`: increment `t`, then update every parameter with
its moment buffers. -/
def adamStep (sqrt : ℚ → ℚ) (cfg : AdamCfg) (t : ℕ) (ps : List AParam)
    (m v : List (Array ℚ)) : ℕ × List (AParam × Array ℚ × Array ℚ) :=
  (t + 1, adamZip sqrt cfg (t + 1) ps m v)

/-- Helper: an all-zero buffer of length `n` (fresh moment buffers,
`new Float32Array(p.size).fill(0)`; also fresh gradient buffers in
Tensor.js). -/
def zeros (n : ℕ) : Array ℚ := Array.mkArray n 0

theorem zeros_getD (n i : ℕ) : (zeros n).getD i 0 = 0 := by
  unfold zeros Array.getD
  split
  · simp
  · rfl

theorem ofFn_congr {α : Type} {n : ℕ} {f g : Fin n → α}
    (h : ∀ i, f i = g i) : Array.ofFn f = Array.ofFn g :=
  congrArg _ (funext h)

/-- Evaluation of the per-element Adam update at step `t = 1` from zero
moments: the bias-corrected moments cancel down to the raw gradient and its
square. -/
theorem adamElem_first (sqrt : ℚ → ℚ) (cfg : AdamCfg)
    (hb1 : cfg.beta1 ≠ 1) (hb2 : cfg.beta2 ≠ 1) (pd g : ℚ) :
    adamElem sqrt cfg 1 pd 0 0 g =
      (pd - cfg.lr * g / (sqrt (g * g) + cfg.eps),
       (1 - cfg.beta1) * g, (1 - cfg.beta2) * (g * g)) := by
  have h1 : (1 : ℚ) - cfg.beta1 ≠ 0 := sub_ne_zero.mpr (Ne.symm hb1)
  have h2 : (1 : ℚ) - cfg.beta2 ≠ 0 := sub_ne_zero.mpr (Ne.symm hb2)
  unfold adamElem
  simp only [pow_one, mul_zero, zero_add]
  rw [mul_div_cancel_left₀ _ h1, mul_div_cancel_left₀ _ h2]

/-- C10 : For an Adam optimizer freshly constructed over parameters with
zero-initialized moment buffers, after exactly one `step()` with a gradient
`g` on a parameter, the bias-corrected moments used in the update equal the
raw moments of that single gradient — elementwise `m̂ = g` and `v̂ = g²`
(the bias-correction divisors are `1-β1` and `1-β2` at `t = 1`) — so the
parameter's update `param -= lr * m̂ / (sqrt v̂ + ε)` produces the data
`param - lr * g / (sqrt (g*g) + ε)`, and the stored raw moments are
`(1-β1)·g` and `(1-β2)·g²`. -/
theorem adam_first_step_bias_correction
    (sqrt : ℚ → ℚ) (cfg : AdamCfg) (p : AParam) (g : Array ℚ)
    (hb1 : cfg.beta1 ≠ 1) (hb2 : cfg.beta2 ≠ 1)
    (hg : p.grad = some g) :
    adamStep sqrt cfg 0 [p] [zeros p.data.size] [zeros p.data.size] =
      (1,
       [({ p with data := Array.ofFn fun i : Fin p.data.size =>
             p.data.getD i 0 -
               cfg.lr * (g.getD i 0) /
                 (sqrt ((g.getD i 0) * (g.getD i 0)) + cfg.eps) },
         Array.ofFn fun i : Fin p.data.size =>
           (1 - cfg.beta1) * g.getD i 0,
         Array.ofFn fun i : Fin p.data.size =>
           (1 - cfg.beta2) * (g.getD i 0 * g.getD i 0))]) := by
  simp only [adamStep, adamZip, adamUpdate, hg, Nat.zero_add, zeros_getD,
    adamElem_first sqrt cfg hb1 hb2]

/-- Witness for C10 at a concrete parameter: data `[10]`, gradient `[2]`,
default hyperparameters, `sqrt` instantiated by a function that is exact at
the evaluated point (`sqrt 4 = 2`). -/
theorem adam_first_step_bias_correction_witness :
    ((9 / 10 : ℚ) ≠ 1 ∧ (999 / 1000 : ℚ) ≠ 1 ∧
      ({ data := #[10], grad := some #[2] } : AParam).grad = some #[2]) ∧
    adamStep (fun x => x / 2 + 1)
        { lr := 1 / 1000, beta1 := 9 / 10, beta2 := 999 / 1000, eps := 0 } 0
        [{ data := #[10], grad := some #[2] }] [zeros 1] [zeros 1] =
      (1,
       [({ data := Array.ofFn fun i : Fin 1 =>
             ((#[10] : Array ℚ).getD i 0 -
               (1 / 1000 : ℚ) * ((#[2] : Array ℚ).getD i 0) /
                 ((fun x : ℚ => x / 2 + 1)
                   (((#[2] : Array ℚ).getD i 0) * ((#[2] : Array ℚ).getD i 0)) + 0)),
           grad := some #[2] },
         Array.ofFn fun i : Fin 1 =>
           (1 - (9 / 10 : ℚ)) * (#[2] : Array ℚ).getD i 0,
         Array.ofFn fun i : Fin 1 =>
           (1 - (999 / 1000 : ℚ)) *
             ((#[2] : Array ℚ).getD i 0 * (#[2] : Array ℚ).getD i 0))]) := by
  refine ⟨⟨by norm_num, by norm_num, rfl⟩, ?_⟩
  exact adam_first_step_bias_correction (fun x => x / 2 + 1)
    { lr := 1 / 1000, beta1 := 9 / 10, beta2 := 999 / 1000, eps := 0 }
    { data := #[10], grad := some #[2] } #[2] (by norm_num) (by norm_num) rfl

/-! ## Tensor.js (`src/unnamed/part_000`): `Tensor._inferShapeAndFlatten`

`Tensor.from(arr)` infers a shape by walking down the chain of first
children of the nested input array and flattens the input; sibling length
checks happen only along that first-child chain.  Nested JS array inputs
are modelled by the rose tree `NArr` (numeric leaves as rationals). -/

/-- A nested JS array value: a number or an array of nested values. -/
inductive NArr where
  | num (q : ℚ)
  | arr (l : List NArr)

/-- JS `Array.isArray`. -/
def NArr.isArr : NArr → Bool
  | .num _ => false
  | .arr _ => true

/-- JS `x.length` for an array value (never asked of a number in the
executions the shape loop performs after an `isArray` check). -/
def NArr.lenOf : NArr → ℕ
  | .num _ => 0
  | .arr l => l.length

/-- The `while (Array.isArray(currentLevel))` loop of
`_inferShapeAndFlatten`: push the current length, check that all siblings
of the first child are arrays of the first child's length (only when the
first child is an array; the JS code throws otherwise, modelled by
`none`), then descend into the first child. -/
def shapeLoop : NArr → Option (List ℕ)
  | .num _ => some []
  | .arr [] => some []
  | .arr (x :: rest) =>
    match x with
    | .num q =>
      (shapeLoop (.num q)).map ((x :: rest).length :: ·)
    | .arr xl =>
      if rest.all (fun e => e.isArr && e.lenOf == xl.length) then
        (shapeLoop (.arr xl)).map ((x :: rest).length :: ·)
      else
        none

/-- The `flatten` closure of `_inferShapeAndFlatten`: depth-first
concatenation of all numeric leaves. -/
def flattenN : NArr → List ℚ
  | .num q => [q]
  | .arr [] => []
  | .arr (x :: xs) => flattenN x ++ flattenN (.arr xs)

/-- The whole `_inferShapeAndFlatten`: run the shape loop (propagating its
error), then flatten.  `Tensor.from` builds a tensor whose `data` is the
first and whose `shape` is the second component, with no further check. -/
def inferShapeAndFlatten (a : NArr) : Option (List ℚ × List ℕ) :=
  (shapeLoop a).map fun s => (flattenN a, s)

/-- The ragged input `[[[1],[2]],[[3],[4,5]]]`: raggedness sits below the
second top-level child, off the first-child chain. -/
def raggedInput : NArr :=
  .arr [.arr [.arr [.num 1], .arr [.num 2]],
        .arr [.arr [.num 3], .arr [.num 4, .num 5]]]

/-- C5 : The claim says every observable tensor satisfies
`shape product = data length` and that `Tensor.from` fails on every ragged
nested-array input.  The code checks sibling lengths only along the chain
of first children, so the ragged input `[[[1],[2]],[[3],[4,5]]]` is
accepted: `_inferShapeAndFlatten` returns shape `[2,2,1]` (product 4)
together with the five flattened elements `[1,2,3,4,5]`, and `Tensor.from`
then constructs a tensor violating the invariant instead of failing. -/
theorem inferShapeAndFlatten_ragged_accepted :
    inferShapeAndFlatten raggedInput =
      some ([1, 2, 3, 4, 5], [2, 2, 1]) ∧
    (∃ p, inferShapeAndFlatten raggedInput = some p ∧
      p.1.length = 5 ∧ p.2.prod = 4 ∧ p.1.length ≠ p.2.prod) := by
  have h : inferShapeAndFlatten raggedInput =
      some ([1, 2, 3, 4, 5], [2, 2, 1]) := by
    simp [inferShapeAndFlatten, raggedInput, shapeLoop, flattenN, NArr.isArr,
      NArr.lenOf]
  exact ⟨h, ([1, 2, 3, 4, 5], [2, 2, 1]), h, rfl, rfl, by decide⟩

/-! ## Ops.js: tensor buffers and the `add` / `mul` operations

A tensor as the ops see it: flat `data` buffer (`Val` values), `shape`,
and the `requires_grad` flag (`size` is `data.length`).  Each op's forward
pass is a function returning `none` where the JS code throws; each op's
backward closure is modelled by functions from the upstream gradient to the
per-input gradient contribution (the delta the closure adds into the
input's `grad.data`; gradients of the executions covered by the claims are
finite, hence `Array ℚ`).  The graph engine below accumulates such deltas
into an input's gradient exactly when the input has `requires_grad`, as
every closure's `if (x.requires_grad)` guard does. -/

/-- Tensor buffer: `data`, `shape`, `requires_grad` (`size = data.length`). -/
structure TBuf where
  data : Array Val
  shape : List ℕ
  requires_grad : Bool

/-- Coerce a rational into the Float32 value model. -/
def qv (x : ℚ) : Val := (x : Val)

/-- The bias-broadcast side condition of `Ops.add`:
`a.shape.length === 2 && b.shape.length === 2 && b.shape[0] === 1 &&
a.shape[1] === b.shape[1]`. -/
def bcastCond (a b : TBuf) : Prop :=
  a.shape.length = 2 ∧ b.shape.length = 2 ∧ b.shape.getD 0 0 = 1 ∧
    a.shape.getD 1 0 = b.shape.getD 1 0

instance (a b : TBuf) : Decidable (bcastCond a b) := by
  unfold bcastCond
  infer_instance

/-- Forward pass of `Ops.add` (lines 12-35 of Ops.js): elementwise when the
shapes are equal, row-broadcast when `b` is a single row matching `a`'s
trailing dimension, shape error otherwise.  The result keeps `a.shape`; in
the broadcast case the JS code fills `resultData[i*colsA+j]` for
`i < rowsA`, `j < colsA` of a zero-initialized buffer of length `a.size`. -/
def addForward (a b : TBuf) : Option TBuf :=
  if a.shape = b.shape then
    some ⟨Array.ofFn fun i : Fin a.data.size =>
            a.data.getD i ⊥ + b.data.getD i ⊥,
          a.shape, a.requires_grad || b.requires_grad⟩
  else if bcastCond a b then
    let rows := a.shape.getD 0 0
    let cols := a.shape.getD 1 0
    some ⟨Array.ofFn fun idx : Fin a.data.size =>
            if (idx : ℕ) < rows * cols then
              a.data.getD idx ⊥ + b.data.getD ((idx : ℕ) % cols) ⊥
            else 0,
          a.shape, a.requires_grad || b.requires_grad⟩
  else none

/-- Backward contribution of `Ops.add` into `a.grad` (lines 41-46): the
upstream gradient, unchanged, over `a.grad.data.length = a.size` slots. -/
def addBackA (a : TBuf) (up : Array ℚ) : Array ℚ :=
  Array.ofFn fun i : Fin a.data.size => up.getD i 0

/-- Backward contribution of `Ops.add` into `b.grad` (lines 47-63): the
column-wise sum of the upstream over `rowsA` rows when the broadcast test
`a.shape.length === 2 && b.shape.length === 2 && b.shape[0] === 1` holds,
the unchanged upstream otherwise. -/
def addBackB (a b : TBuf) (up : Array ℚ) : Array ℚ :=
  if a.shape.length = 2 ∧ b.shape.length = 2 ∧ b.shape.getD 0 0 = 1 then
    let rows := a.shape.getD 0 0
    let cols := a.shape.getD 1 0
    Array.ofFn fun j : Fin b.data.size =>
      if (j : ℕ) < cols then
        ∑ i ∈ Finset.range rows, up.getD (i * cols + (j : ℕ)) 0
      else 0
  else
    Array.ofFn fun i : Fin b.data.size => up.getD i 0

/-- Forward pass of `Ops.mul` (lines 71-94): elementwise when the shapes are
equal, scalar broadcast when either operand's buffer has size 1, shape
error otherwise. -/
def mulForward (a b : TBuf) : Option TBuf :=
  if a.shape = b.shape then
    some ⟨Array.ofFn fun i : Fin a.data.size =>
            a.data.getD i ⊥ * b.data.getD i ⊥,
          a.shape, a.requires_grad || b.requires_grad⟩
  else if b.data.size = 1 then
    some ⟨Array.ofFn fun i : Fin a.data.size =>
            a.data.getD i ⊥ * b.data.getD 0 ⊥,
          a.shape, a.requires_grad || b.requires_grad⟩
  else if a.data.size = 1 then
    some ⟨Array.ofFn fun i : Fin b.data.size =>
            b.data.getD i ⊥ * a.data.getD 0 ⊥,
          b.shape, a.requires_grad || b.requires_grad⟩
  else none

/-- Backward contribution of `Ops.mul` into `a.grad` (lines 100-110): the
closure handles only `a.size === b.size` (elementwise) and `b.size === 1`
(`a` tensor, `b` scalar); any other case adds nothing. -/
def mulBackA (a b : TBuf) (up : Array ℚ) : Array ℚ :=
  if a.data.size = b.data.size then
    Array.ofFn fun i : Fin a.data.size =>
      toQ (b.data.getD i ⊥) * up.getD i 0
  else if b.data.size = 1 then
    Array.ofFn fun i : Fin a.data.size =>
      toQ (b.data.getD 0 ⊥) * up.getD i 0
  else zeros a.data.size

/-- Backward contribution of `Ops.mul` into `b.grad` (lines 111-121): the
closure handles only `a.size === b.size` (elementwise) and `a.size === 1`
(`b` tensor, `a` scalar); any other case — in particular `b` being the
scalar operand — adds nothing. -/
def mulBackB (a b : TBuf) (up : Array ℚ) : Array ℚ :=
  if a.data.size = b.data.size then
    Array.ofFn fun i : Fin b.data.size =>
      toQ (a.data.getD i ⊥) * up.getD i 0
  else if a.data.size = 1 then
    Array.ofFn fun i : Fin b.data.size =>
      toQ (a.data.getD 0 ⊥) * up.getD i 0
  else zeros b.data.size

/-- Backward contribution of `Ops.sum` (lines 263-277): the upstream
scalar, broadcast to every slot of the input's gradient buffer. -/
def sumBackDelta (n : ℕ) (up : Array ℚ) : Array ℚ :=
  Array.ofFn fun _ : Fin n => up.getD 0 0

/-- C9 : `add(a, b)` returns the elementwise sum with `a`'s shape when the
shapes are equal; when `a` has shape `[N, M]` and `b` has shape `[1, M]` it
returns the row-broadcast sum of shape `[N, M]`; for every other shape pair
it fails; and in the broadcast case the backward closure contributes the
upstream gradient unchanged to `a`'s gradient and the column-wise sum of
the upstream over the `N` rows to `b`'s gradient. -/
theorem ops_add_spec (a b : TBuf) (N M : ℕ) (up : Array ℚ) :
    (a.shape = b.shape →
      addForward a b = some ⟨Array.ofFn fun i : Fin a.data.size =>
        a.data.getD i ⊥ + b.data.getD i ⊥,
        a.shape, a.requires_grad || b.requires_grad⟩) ∧
    (a.shape = [N, M] → b.shape = [1, M] → a.data.size = N * M →
      (addForward a b = some ⟨Array.ofFn fun idx : Fin a.data.size =>
          a.data.getD idx ⊥ + b.data.getD ((idx : ℕ) % M) ⊥,
          [N, M], a.requires_grad || b.requires_grad⟩) ∧
      addBackA a up = (Array.ofFn fun i : Fin a.data.size => up.getD i 0) ∧
      (b.data.size = M →
        addBackB a b up = Array.ofFn fun j : Fin b.data.size =>
          ∑ i ∈ Finset.range N, up.getD (i * M + (j : ℕ)) 0)) ∧
    (a.shape ≠ b.shape → ¬ bcastCond a b → addForward a b = none) := by
  refine ⟨?_, ?_, ?_⟩
  · intro h
    unfold addForward
    rw [if_pos h]
  · intro ha hb hsz
    refine ⟨?_, rfl, ?_⟩
    · by_cases heq : a.shape = b.shape
      · have hN : N = 1 := by
          rw [ha, hb] at heq
          exact (List.cons.injEq _ _ _ _).mp heq |>.1
        rw [hN, one_mul] at hsz
        unfold addForward
        rw [if_pos heq, ha]
        have harr : (Array.ofFn fun i : Fin a.data.size =>
            a.data.getD i ⊥ + b.data.getD i ⊥) =
            (Array.ofFn fun idx : Fin a.data.size =>
              a.data.getD idx ⊥ + b.data.getD ((idx : ℕ) % M) ⊥) := by
          refine ofFn_congr fun i => ?_
          have hi : (i : ℕ) < M := by
            have := i.isLt
            omega
          rw [Nat.mod_eq_of_lt hi]
        rw [harr]
      · have hbc : bcastCond a b := by
          unfold bcastCond
          rw [ha, hb]
          exact ⟨rfl, rfl, rfl, rfl⟩
        unfold addForward
        rw [if_neg heq, if_pos hbc, ha]
        simp only [List.getD_cons_zero, List.getD_cons_succ]
        have harr : (Array.ofFn fun idx : Fin a.data.size =>
            if (idx : ℕ) < N * M then
              a.data.getD idx ⊥ + b.data.getD ((idx : ℕ) % M) ⊥
            else 0) =
            (Array.ofFn fun idx : Fin a.data.size =>
              a.data.getD idx ⊥ + b.data.getD ((idx : ℕ) % M) ⊥) := by
          refine ofFn_congr fun i => ?_
          have hi : (i : ℕ) < N * M := by
            have := i.isLt
            omega
          rw [if_pos hi]
        rw [harr]
    · intro hbsz
      have hcond : a.shape.length = 2 ∧ b.shape.length = 2 ∧
          b.shape.getD 0 0 = 1 := by
        rw [ha, hb]
        exact ⟨rfl, rfl, rfl⟩
      unfold addBackB
      rw [if_pos hcond, ha]
      simp only [List.getD_cons_zero, List.getD_cons_succ]
      refine ofFn_congr fun j => ?_
      have hj : (j : ℕ) < M := by
        have := j.isLt
        omega
      rw [if_pos hj]
  · intro hne hnb
    unfold addForward
    rw [if_neg hne, if_neg hnb]

/-- Witness for C9 at concrete tensors: `a` of shape `[3,4]` (twelve ones),
`b = [[10,20,30,40]]` of shape `[1,4]`, upstream all ones. -/
theorem ops_add_spec_witness :
    ((⟨Array.mkArray 12 (qv 1), [3, 4], true⟩ : TBuf).shape = [3, 4] ∧
     (⟨#[qv 10, qv 20, qv 30, qv 40], [1, 4], false⟩ : TBuf).shape = [1, 4] ∧
     (⟨Array.mkArray 12 (qv 1), [3, 4], true⟩ : TBuf).data.size = 3 * 4 ∧
     (⟨#[qv 10, qv 20, qv 30, qv 40], [1, 4], false⟩ : TBuf).data.size = 4) ∧
    ((addForward ⟨Array.mkArray 12 (qv 1), [3, 4], true⟩
        ⟨#[qv 10, qv 20, qv 30, qv 40], [1, 4], false⟩ =
      some ⟨Array.ofFn fun idx :
          Fin (⟨Array.mkArray 12 (qv 1), [3, 4], true⟩ : TBuf).data.size =>
          (Array.mkArray 12 (qv 1)).getD idx ⊥ +
            (#[qv 10, qv 20, qv 30, qv 40] : Array Val).getD ((idx : ℕ) % 4) ⊥,
        [3, 4], true || false⟩) ∧
     addBackA ⟨Array.mkArray 12 (qv 1), [3, 4], true⟩ (Array.mkArray 12 1) =
       (Array.ofFn fun i :
          Fin (⟨Array.mkArray 12 (qv 1), [3, 4], true⟩ : TBuf).data.size =>
          (Array.mkArray 12 (1 : ℚ)).getD i 0) ∧
     addBackB ⟨Array.mkArray 12 (qv 1), [3, 4], true⟩
        ⟨#[qv 10, qv 20, qv 30, qv 40], [1, 4], false⟩ (Array.mkArray 12 1) =
       Array.ofFn fun j :
          Fin (⟨#[qv 10, qv 20, qv 30, qv 40], [1, 4], false⟩ : TBuf).data.size =>
          ∑ i ∈ Finset.range 3, (Array.mkArray 12 (1 : ℚ)).getD (i * 4 + (j : ℕ)) 0) := by
  refine ⟨⟨rfl, rfl, by decide, by decide⟩, ?_⟩
  have h := (ops_add_spec ⟨Array.mkArray 12 (qv 1), [3, 4], true⟩
    ⟨#[qv 10, qv 20, qv 30, qv 40], [1, 4], false⟩ 3 4
    (Array.mkArray 12 1)).2.1 rfl rfl (by decide)
  exact ⟨h.1, h.2.1, h.2.2 (by decide)⟩

/-- Counterexample for C6 : with `a = [1,2]` (size 2) and the scalar
`b = [3]` (size 1), both requiring gradients, and upstream `[1,1]`, the
claim says the scalar operand's gradient receives
`sum(a.data * upstream) = 3`; the backward closure of `Ops.mul` has no case
for `b.size === 1` on the `b` side, so its contribution to `b.grad` is `0`,
not `3`. -/
theorem mul_scalar_back_counterexample :
    (⟨#[qv 1, qv 2], [2], true⟩ : TBuf).data.size = 2 ∧
    (⟨#[qv 3], [1], true⟩ : TBuf).data.size = 1 ∧
    mulBackB ⟨#[qv 1, qv 2], [2], true⟩ ⟨#[qv 3], [1], true⟩ #[1, 1] =
      #[(0 : ℚ)] ∧
    mulBackB ⟨#[qv 1, qv 2], [2], true⟩ ⟨#[qv 3], [1], true⟩ #[1, 1] ≠
      #[(3 : ℚ)] := by
  have h : mulBackB ⟨#[qv 1, qv 2], [2], true⟩ ⟨#[qv 3], [1], true⟩
      #[1, 1] = #[(0 : ℚ)] := by
    unfold mulBackB
    norm_num [zeros, Array.mkArray]
  refine ⟨rfl, rfl, h, ?_⟩
  rw [h]
  intro hc
  have h2 := congrArg (fun t : Array ℚ => t.getD 0 0) hc
  norm_num [Array.getD] at h2

/-- C6 amended : for `mul(a, b)` in the scalar-broadcast case (exactly one
operand has buffer size `1`, the other a larger buffer), the backward
closure contributes the scalar value times the upstream gradient,
elementwise, to the tensor operand's gradient, and contributes nothing to
the scalar operand's gradient, whichever side the scalar is on: with `b`
the scalar only the `b.size === 1` case of the `a`-side closure fires, and
with `a` the scalar only the `a.size === 1` case of the `b`-side closure
fires; no case feeds `sum(other * upstream)` back into the scalar. -/
theorem mul_scalar_backward_amended (a b : TBuf) (up : Array ℚ) :
    (b.data.size = 1 → 1 < a.data.size →
      mulBackA a b up = (Array.ofFn fun i : Fin a.data.size =>
        toQ (b.data.getD 0 ⊥) * up.getD i 0) ∧
      mulBackB a b up = zeros b.data.size) ∧
    (a.data.size = 1 → 1 < b.data.size →
      mulBackB a b up = (Array.ofFn fun i : Fin b.data.size =>
        toQ (a.data.getD 0 ⊥) * up.getD i 0) ∧
      mulBackA a b up = zeros a.data.size) := by
  constructor
  · intro hb ha
    have hne : a.data.size ≠ b.data.size := by omega
    have hna : a.data.size ≠ 1 := by omega
    constructor
    · unfold mulBackA
      rw [if_neg hne, if_pos hb]
    · unfold mulBackB
      rw [if_neg hne, if_neg hna]
  · intro ha hb
    have hne : a.data.size ≠ b.data.size := by omega
    have hnb : b.data.size ≠ 1 := by omega
    constructor
    · unfold mulBackB
      rw [if_neg hne, if_pos ha]
    · unfold mulBackA
      rw [if_neg hne, if_neg hnb]

/-- Witness for the amended C6 at `a = [1,2]`, `b = [3]` (scalar second
operand) and at the swapped `a = [3]`, `b = [1,2]` (scalar first operand),
upstream `[1,1]`. -/
theorem mul_scalar_backward_amended_witness :
    ((⟨#[qv 3], [1], true⟩ : TBuf).data.size = 1 ∧
     1 < (⟨#[qv 1, qv 2], [2], true⟩ : TBuf).data.size) ∧
    (mulBackA ⟨#[qv 1, qv 2], [2], true⟩ ⟨#[qv 3], [1], true⟩ #[1, 1] =
      (Array.ofFn fun i : Fin (⟨#[qv 1, qv 2], [2], true⟩ : TBuf).data.size =>
        toQ ((#[qv 3] : Array Val).getD 0 ⊥) * (#[(1 : ℚ), 1] : Array ℚ).getD i 0) ∧
     mulBackB ⟨#[qv 1, qv 2], [2], true⟩ ⟨#[qv 3], [1], true⟩ #[1, 1] =
      zeros (⟨#[qv 3], [1], true⟩ : TBuf).data.size) ∧
    (mulBackB ⟨#[qv 3], [1], true⟩ ⟨#[qv 1, qv 2], [2], true⟩ #[1, 1] =
      (Array.ofFn fun i : Fin (⟨#[qv 1, qv 2], [2], true⟩ : TBuf).data.size =>
        toQ ((#[qv 3] : Array Val).getD 0 ⊥) * (#[(1 : ℚ), 1] : Array ℚ).getD i 0) ∧
     mulBackA ⟨#[qv 3], [1], true⟩ ⟨#[qv 1, qv 2], [2], true⟩ #[1, 1] =
      zeros (⟨#[qv 3], [1], true⟩ : TBuf).data.size) := by
  exact ⟨⟨rfl, by decide⟩,
    (mul_scalar_backward_amended ⟨#[qv 1, qv 2], [2], true⟩
      ⟨#[qv 3], [1], true⟩ #[1, 1]).1 rfl (by decide),
    (mul_scalar_backward_amended ⟨#[qv 3], [1], true⟩
      ⟨#[qv 1, qv 2], [2], true⟩ #[1, 1]).2 rfl (by decide)⟩

/-! ## Ops.js: `softmax` (lines 281-326)

Row-wise, numerically stabilized softmax over a 2D buffer.  The buffer may
hold `-Infinity` entries (written by the causal mask), and
`exp(-Infinity - max) = 0` exactly; `eexp` captures this.  The unreachable
degenerate case of a whole row of `-Infinity` (which yields `NaN` in JS) is
modelled by the junk value `0`. -/

/-- Helper: array lookup with an explicit in-range proof. -/
theorem ofFn_getD {α : Type} {n : ℕ} (f : Fin n → α) (i : ℕ) (d : α)
    (h : i < n) : (Array.ofFn f).getD i d = f ⟨i, h⟩ := by
  unfold Array.getD
  split
  · simp
  · next hn =>
    exact absurd (by simpa using h) hn

/-- Helper: lookup through `Array.map`. -/
theorem getD_map {α β : Type} (f : α → β) (d : Array α) (i : ℕ)
    (da : α) (db : β) (h : i < d.size) :
    (d.map f).getD i db = f (d.getD i da) := by
  unfold Array.getD
  have hm : i < (d.map f).size := by simpa using h
  rw [dif_pos hm, dif_pos h]
  simp

/-- Index arithmetic for flat row-major buffers: row recovery. -/
theorem idx_div (i j cols : ℕ) (hj : j < cols) : (i * cols + j) / cols = i := by
  rw [Nat.add_comm, Nat.add_mul_div_right _ _ (Nat.pos_of_ne_zero (by omega)),
    Nat.div_eq_of_lt hj, Nat.zero_add]

/-- Index arithmetic for flat row-major buffers: column recovery. -/
theorem idx_mod (i j cols : ℕ) (hj : j < cols) : (i * cols + j) % cols = j := by
  rw [Nat.add_comm, Nat.add_mul_mod_self_right, Nat.mod_eq_of_lt hj]

/-- Index arithmetic for flat row-major buffers: range bound. -/
theorem idx_lt (i j rows cols : ℕ) (hi : i < rows) (hj : j < cols) :
    i * cols + j < rows * cols := by
  calc i * cols + j < i * cols + cols := by omega
    _ = (i + 1) * cols := by ring
    _ ≤ rows * cols := Nat.mul_le_mul_right _ (by omega)

/-- The row maximum computed by the first inner loop of `Ops.softmax`
(`max_val` starts at `-Infinity` and takes the running maximum of the row's
entries). -/
def rowMax (d : Array Val) (off cols : ℕ) : Val :=
  (List.range cols).foldl (fun m j => max m (d.getD (off + j) ⊥)) ⊥

/-- The value `Math.exp(x - max_val)` of the second inner loop:
`exp(-Infinity - m) = 0`; a `⊥` maximum only occurs for an all-`-Infinity`
row (JS `NaN`, unreachable in the covered executions, modelled by 0). -/
def eexp (exp : ℚ → ℚ) (x m : Val) : ℚ :=
  if x = ⊥ ∨ m = ⊥ then 0 else exp (toQ x - toQ m)

/-- The row sum `sum_exp` of the second inner loop of `Ops.softmax`. -/
def sumExpRow (exp : ℚ → ℚ) (d : Array Val) (off cols : ℕ) : ℚ :=
  ∑ j ∈ Finset.range cols, eexp exp (d.getD (off + j) ⊥) (rowMax d off cols)

/-- One normalized entry of `Ops.softmax`'s result
(`resultData[row_offset + j] = exp_data_row[j] / sum_exp`). -/
def softmaxEntry (exp : ℚ → ℚ) (d : Array Val) (cols : ℕ) (idx : ℕ) : ℚ :=
  let off := idx / cols * cols
  eexp exp (d.getD idx ⊥) (rowMax d off cols) / sumExpRow exp d off cols

/-- Forward pass of `Ops.softmax`: requires a 2D shape, fills the entries
at `i*cols + j` for `i < rows`, `j < cols` of a zero-initialized buffer of
length `a.size`, and keeps the shape and `requires_grad` flag.  (When
`requires_grad` is set the op attaches a context whose backward body is
empty; see the graph section.) -/
def softmaxForward (exp : ℚ → ℚ) (a : TBuf) : Option TBuf :=
  if a.shape.length = 2 then
    let rows := a.shape.getD 0 0
    let cols := a.shape.getD 1 0
    some ⟨Array.ofFn fun idx : Fin a.data.size =>
            if (idx : ℕ) < rows * cols then
              qv (softmaxEntry exp a.data cols idx)
            else 0,
          a.shape, a.requires_grad⟩
  else none

theorem init_le_foldl_max (f : ℕ → Val) :
    ∀ (l : List ℕ) (init : Val),
      init ≤ l.foldl (fun m j => max m (f j)) init
  | [], _ => le_refl _
  | x :: xs, init =>
    le_trans (le_max_left _ _) (init_le_foldl_max f xs (max init (f x)))

theorem mem_le_foldl_max (f : ℕ → Val) :
    ∀ (l : List ℕ) (init : Val) (x : ℕ), x ∈ l →
      f x ≤ l.foldl (fun m j => max m (f j)) init := by
  intro l
  induction l with
  | nil => intro _ x hx; cases hx
  | cons y ys ih =>
    intro init x hx
    rcases List.mem_cons.mp hx with h | h
    · subst h
      exact le_trans (le_max_right _ _) (init_le_foldl_max f ys _)
    · exact ih _ x h

/-- Every row entry is bounded by the computed row maximum. -/
theorem le_rowMax (d : Array Val) (off cols j : ℕ) (hj : j < cols) :
    d.getD (off + j) ⊥ ≤ rowMax d off cols := by
  unfold rowMax
  exact mem_le_foldl_max (fun j => d.getD (off + j) ⊥) (List.range cols) ⊥ j
    (List.mem_range.mpr hj)

theorem eexp_nonneg (exp : ℚ → ℚ) (hexp : ∀ q, 0 < exp q) (x m : Val) :
    0 ≤ eexp exp x m := by
  unfold eexp
  split
  · exact le_refl _
  · exact le_of_lt (hexp _)

theorem eexp_pos (exp : ℚ → ℚ) (hexp : ∀ q, 0 < exp q) (x m : Val)
    (hx : x ≠ ⊥) (hm : m ≠ ⊥) : 0 < eexp exp x m := by
  unfold eexp
  rw [if_neg (by tauto)]
  exact hexp _

/-- The row sum of exponentials is positive as soon as one row entry is
finite (the diagonal entry, for causal masking). -/
theorem sumExpRow_pos (exp : ℚ → ℚ) (hexp : ∀ q, 0 < exp q)
    (d : Array Val) (off cols : ℕ)
    (hfin : ∃ j0, j0 < cols ∧ d.getD (off + j0) ⊥ ≠ ⊥) :
    0 < sumExpRow exp d off cols := by
  obtain ⟨j0, hj0, hne⟩ := hfin
  unfold sumExpRow
  refine Finset.sum_pos' (fun j _ => eexp_nonneg exp hexp _ _) ⟨j0, ?_, ?_⟩
  · exact Finset.mem_range.mpr hj0
  · refine eexp_pos exp hexp _ _ hne ?_
    intro hbot
    have hle := le_rowMax d off cols j0 hj0
    rw [hbot] at hle
    exact hne (le_bot_iff.mp hle)

/-- A `-Infinity` entry gets softmax weight exactly 0. -/
theorem softmaxEntry_bot (exp : ℚ → ℚ) (d : Array Val) (cols idx : ℕ)
    (h : d.getD idx ⊥ = ⊥) : softmaxEntry exp d cols idx = 0 := by
  simp [softmaxEntry, eexp, h]

/-- Each row of the softmax result sums to exactly 1, provided some entry
of the row is finite. -/
theorem softmaxEntry_rowsum (exp : ℚ → ℚ) (hexp : ∀ q, 0 < exp q)
    (d : Array Val) (cols i : ℕ)
    (hfin : ∃ j0, j0 < cols ∧ d.getD (i * cols + j0) ⊥ ≠ ⊥) :
    ∑ j ∈ Finset.range cols, softmaxEntry exp d cols (i * cols + j) = 1 := by
  have hS := sumExpRow_pos exp hexp d (i * cols) cols hfin
  have hterm : ∀ j ∈ Finset.range cols,
      softmaxEntry exp d cols (i * cols + j) =
        eexp exp (d.getD (i * cols + j) ⊥) (rowMax d (i * cols) cols) /
          sumExpRow exp d (i * cols) cols := by
    intro j hj
    unfold softmaxEntry
    rw [idx_div i j cols (Finset.mem_range.mp hj)]
  rw [Finset.sum_congr rfl hterm, ← Finset.sum_div]
  exact div_self (ne_of_gt hS)

/-! ## Ops.js `dot` / `transpose` and the per-head data pipeline of
`MultiHeadAttention.forward` (Layers.js v2, inside `src/slmnet/slmnet.js`)

These are the buffer computations of the forward passes; `reshape`
(spec-modelled below, in the graph section) leaves the flat buffer
untouched, so `_get_head` reads the projection's buffer directly. -/

/-- Matrix product buffer of `Ops.dot` (lines 207-213): entry `(i, j)` of
the `[rowsA, colsB]` result accumulates `a[i,k] * b[k,j]` over `k`. -/
def dotData (a b : Array Val) (rowsA colsA colsB : ℕ) : Array Val :=
  Array.ofFn fun idx : Fin (rowsA * colsB) =>
    ∑ k ∈ Finset.range colsA,
      a.getD ((idx : ℕ) / colsB * colsA + k) ⊥ *
        b.getD (k * colsB + (idx : ℕ) % colsB) ⊥

/-- Transposed buffer of `Tensor.prototype.transpose` (lines 340-352):
`transposedData[j*rows + i] = data[i*cols + j]`, result shape
`[cols, rows]`. -/
def transposeData (d : Array Val) (rows cols : ℕ) : Array Val :=
  Array.ofFn fun idx : Fin (cols * rows) =>
    d.getD (((idx : ℕ) % rows) * cols + (idx : ℕ) / rows) ⊥

/-- Head slice of `MultiHeadAttention._get_head` (lines 427-436):
`head_data[i*head_dim + j] =
 tensor_3d.data[i*num_heads*head_dim + head_index*head_dim + j]`. -/
def getHeadData (d : Array Val) (heads hd h seq : ℕ) : Array Val :=
  Array.ofFn fun idx : Fin (seq * hd) =>
    d.getD ((idx : ℕ) / hd * heads * hd + h * hd + (idx : ℕ) % hd) ⊥

/-- Scalar multiplication branch of `Ops.mul` at the buffer level
(`a.data.map(val => val * scalar)`), used for `scores.mul(1/sqrt(hd))`. -/
def mulScalarData (d : Array Val) (s : Val) : Array Val :=
  d.map (· * s)

/-- The causal-mask loop of `MultiHeadAttention.forward` (lines 411-415):
every score at column index strictly greater than its row index is set to
`-Infinity`, in place; the resulting buffer is this function's value. -/
def maskData (d : Array Val) (seq : ℕ) : Array Val :=
  Array.ofFn fun idx : Fin (seq * seq) =>
    if (idx : ℕ) / seq < (idx : ℕ) % seq then ⊥ else d.getD idx ⊥

/-- The complete per-head masked score buffer of
`MultiHeadAttention.forward` (lines 392-415): project `x` through `wq`/`wk`
(no-bias Dense layers, i.e. plain `dot`), slice out head `h`, compute
`q · kᵀ`, scale, and apply the causal mask.  `emb = heads * hd`. -/
def headScores (x wq wk : Array Val) (seq heads hd h : ℕ) (scale : Val) :
    Array Val :=
  maskData
    (mulScalarData
      (dotData
        (getHeadData (dotData x wq seq (heads * hd) (heads * hd)) heads hd h seq)
        (transposeData
          (getHeadData (dotData x wk seq (heads * hd) (heads * hd)) heads hd h seq)
          seq hd)
        seq hd seq)
      scale)
    seq

/-- Finiteness of the first `n` slots of a buffer (no `-Infinity`). -/
def FiniteUpTo (d : Array Val) (n : ℕ) : Prop :=
  ∀ t, t < n → d.getD t ⊥ ≠ ⊥

theorem getD_ne_bot_lt {d : Array Val} {t : ℕ}
    (h : d.getD t ⊥ ≠ ⊥) : t < d.size := by
  unfold Array.getD at h
  by_cases hlt : t < d.size
  · exact hlt
  · rw [dif_neg hlt] at h
    exact absurd rfl h

theorem sum_ne_bot {s : Finset ℕ} {f : ℕ → Val}
    (h : ∀ k ∈ s, f k ≠ ⊥) : (∑ k ∈ s, f k) ≠ ⊥ := by
  classical
  induction s using Finset.induction_on with
  | empty =>
    simp only [Finset.sum_empty]
    exact bot_lt_iff_ne_bot.mp (by exact_mod_cast WithBot.bot_lt_coe (0 : ℚ))
  | insert hx ih =>
    next a s' =>
    rw [Finset.sum_insert hx]
    refine WithBot.add_ne_bot.mpr ⟨h a (Finset.mem_insert_self a s'), ?_⟩
    exact ih fun k hk => h k (Finset.mem_insert_of_mem hk)

theorem dotData_fin {a b : Array Val} {rowsA colsA colsB : ℕ}
    (ha : FiniteUpTo a (rowsA * colsA)) (hb : FiniteUpTo b (colsA * colsB)) :
    FiniteUpTo (dotData a b rowsA colsA colsB) (rowsA * colsB) := by
  intro idx hidx
  have hcolsB : 0 < colsB := by
    rcases Nat.eq_zero_or_pos colsB with h0 | h0
    · rw [h0, Nat.mul_zero] at hidx
      exact absurd hidx (Nat.not_lt_zero _)
    · exact h0
  have hrow : idx / colsB < rowsA := (Nat.div_lt_iff_lt_mul hcolsB).mpr hidx
  unfold dotData
  rw [ofFn_getD _ _ _ hidx]
  refine sum_ne_bot fun k hk => ?_
  have hk' : k < colsA := Finset.mem_range.mp hk
  refine WithBot.mul_ne_bot (ha _ (idx_lt _ _ _ _ hrow hk')) (hb _ ?_)
  exact idx_lt _ _ _ _ hk' (Nat.mod_lt _ hcolsB)

theorem transposeData_fin {d : Array Val} {rows cols : ℕ}
    (hd : FiniteUpTo d (rows * cols)) :
    FiniteUpTo (transposeData d rows cols) (cols * rows) := by
  intro idx hidx
  have hrows : 0 < rows := by
    rcases Nat.eq_zero_or_pos rows with h0 | h0
    · rw [h0, Nat.mul_zero] at hidx
      exact absurd hidx (Nat.not_lt_zero _)
    · exact h0
  unfold transposeData
  rw [ofFn_getD _ _ _ hidx]
  exact hd _ (idx_lt _ _ _ _ (Nat.mod_lt _ hrows)
    ((Nat.div_lt_iff_lt_mul hrows).mpr hidx))

theorem getHeadData_fin {d : Array Val} {heads hd h seq : ℕ}
    (hfin : FiniteUpTo d (seq * (heads * hd))) (hh : h < heads) :
    FiniteUpTo (getHeadData d heads hd h seq) (seq * hd) := by
  intro idx hidx
  have hhd : 0 < hd := by
    rcases Nat.eq_zero_or_pos hd with h0 | h0
    · rw [h0, Nat.mul_zero] at hidx
      exact absurd hidx (Nat.not_lt_zero _)
    · exact h0
  have hrow : idx / hd < seq := (Nat.div_lt_iff_lt_mul hhd).mpr hidx
  unfold getHeadData
  rw [ofFn_getD _ _ _ hidx]
  refine hfin _ ?_
  have hcol : h * hd + idx % hd < heads * hd :=
    idx_lt _ _ _ _ hh (Nat.mod_lt _ hhd)
  calc idx / hd * heads * hd + h * hd + idx % hd
      = idx / hd * (heads * hd) + (h * hd + idx % hd) := by ring
    _ < seq * (heads * hd) := idx_lt _ _ _ _ hrow hcol

theorem mulScalarData_fin {d : Array Val} {n : ℕ} {q : ℚ}
    (hfin : FiniteUpTo d n) :
    FiniteUpTo (mulScalarData d (qv q)) n := by
  intro t ht
  have hne := hfin t ht
  have hlt := getD_ne_bot_lt hne
  unfold mulScalarData
  rw [getD_map _ _ _ ⊥ _ hlt]
  exact WithBot.mul_ne_bot hne (WithBot.coe_ne_bot)

/-- The masked score buffer is `-Infinity` strictly above the diagonal. -/
theorem maskData_above (d : Array Val) (seq i j : ℕ)
    (hi : i < seq) (hj : j < seq) (hij : i < j) :
    (maskData d seq).getD (i * seq + j) ⊥ = ⊥ := by
  unfold maskData
  rw [ofFn_getD _ _ _ (idx_lt _ _ _ _ hi hj), idx_div _ _ _ hj,
    idx_mod _ _ _ hj, if_pos hij]

/-- The masked score buffer keeps the original value on and below the
diagonal. -/
theorem maskData_below (d : Array Val) (seq i j : ℕ)
    (hi : i < seq) (hj : j < seq) (hij : ¬ i < j) :
    (maskData d seq).getD (i * seq + j) ⊥ = d.getD (i * seq + j) ⊥ := by
  unfold maskData
  rw [ofFn_getD _ _ _ (idx_lt _ _ _ _ hi hj), idx_div _ _ _ hj,
    idx_mod _ _ _ hj, if_neg hij]

theorem toQ_qv (z : ℚ) : toQ (qv z) = z := by
  unfold toQ qv
  exact WithBot.unbot'_coe _ _

/-- C7 : For every `MultiHeadAttention.forward` over a sequence of length
`seq` with finite input values (input `x` and projection weights `wq`,
`wk`; `scale` is the finite Float32 value of `1/sqrt(head_dim)`), and for
every head `h`, the post-softmax attention weight matrix `w` of that head
satisfies: the entry at row `i`, column `j` is exactly 0 for all `j > i`,
and the entries of each row sum to 1 within `1e-6` (the sum is exactly 1
in exact arithmetic). -/
theorem mha_causal_mask_softmax
    (exp : ℚ → ℚ) (hexp : ∀ q, 0 < exp q)
    (x wq wk : Array Val) (seq heads hd h : ℕ) (scale : ℚ)
    (hh : h < heads)
    (hx : FiniteUpTo x (seq * (heads * hd)))
    (hwq : FiniteUpTo wq ((heads * hd) * (heads * hd)))
    (hwk : FiniteUpTo wk ((heads * hd) * (heads * hd))) :
    ∃ w : TBuf,
      softmaxForward exp
          ⟨headScores x wq wk seq heads hd h (qv scale), [seq, seq], false⟩ =
        some w ∧
      (∀ i j, i < seq → j < seq → i < j →
        w.data.getD (i * seq + j) ⊥ = qv 0) ∧
      (∀ i, i < seq →
        |(∑ j ∈ Finset.range seq, toQ (w.data.getD (i * seq + j) ⊥)) - 1| ≤
          1 / 1000000) := by
  have hQ : FiniteUpTo (dotData x wq seq (heads * hd) (heads * hd))
      (seq * (heads * hd)) := dotData_fin hx hwq
  have hK : FiniteUpTo (dotData x wk seq (heads * hd) (heads * hd))
      (seq * (heads * hd)) := dotData_fin hx hwk
  have hq : FiniteUpTo
      (getHeadData (dotData x wq seq (heads * hd) (heads * hd)) heads hd h seq)
      (seq * hd) := getHeadData_fin hQ hh
  have hk : FiniteUpTo
      (getHeadData (dotData x wk seq (heads * hd) (heads * hd)) heads hd h seq)
      (seq * hd) := getHeadData_fin hK hh
  have hkT : FiniteUpTo
      (transposeData
        (getHeadData (dotData x wk seq (heads * hd) (heads * hd)) heads hd h seq)
        seq hd) (hd * seq) := transposeData_fin hk
  have hs1 : FiniteUpTo
      (dotData
        (getHeadData (dotData x wq seq (heads * hd) (heads * hd)) heads hd h seq)
        (transposeData
          (getHeadData (dotData x wk seq (heads * hd) (heads * hd)) heads hd h seq)
          seq hd)
        seq hd seq) (seq * seq) := dotData_fin hq hkT
  have hs2 : FiniteUpTo
      (mulScalarData
        (dotData
          (getHeadData (dotData x wq seq (heads * hd) (heads * hd)) heads hd h seq)
          (transposeData
            (getHeadData (dotData x wk seq (heads * hd) (heads * hd)) heads hd h seq)
            seq hd)
          seq hd seq) (qv scale)) (seq * seq) := mulScalarData_fin hs1
  set S := headScores x wq wk seq heads hd h (qv scale) with hSdef
  have hsize : S.size = seq * seq := by
    rw [hSdef]
    unfold headScores maskData
    exact Array.size_ofFn _
  have hdiag : ∀ i, i < seq → S.getD (i * seq + i) ⊥ ≠ ⊥ := by
    intro i hi
    rw [hSdef]
    unfold headScores
    rw [maskData_below _ _ _ _ hi hi (lt_irrefl i)]
    exact hs2 _ (idx_lt _ _ _ _ hi hi)
  have habove : ∀ i j, i < seq → j < seq → i < j →
      S.getD (i * seq + j) ⊥ = ⊥ := by
    intro i j hi hj hij
    rw [hSdef]
    unfold headScores
    exact maskData_above _ _ _ _ hi hj hij
  refine ⟨⟨Array.ofFn fun idx : Fin S.size =>
      if (idx : ℕ) < seq * seq then qv (softmaxEntry exp S seq idx)
      else 0, [seq, seq], false⟩, ?_, ?_, ?_⟩
  · have hlen : (⟨S, [seq, seq], false⟩ : TBuf).shape.length = 2 := rfl
    unfold softmaxForward
    rw [if_pos hlen]
    rfl
  · intro i j hi hj hij
    have hb : i * seq + j < S.size := by
      rw [hsize]
      exact idx_lt _ _ _ _ hi hj
    show (Array.ofFn _).getD _ _ = _
    rw [ofFn_getD _ _ _ hb, if_pos (hsize ▸ hb),
      softmaxEntry_bot exp S seq _ (habove i j hi hj hij)]
  · intro i hi
    have hterm : ∀ j ∈ Finset.range seq,
        toQ ((Array.ofFn fun idx : Fin S.size =>
          if (idx : ℕ) < seq * seq then qv (softmaxEntry exp S seq idx)
          else 0).getD (i * seq + j) ⊥) =
          softmaxEntry exp S seq (i * seq + j) := by
      intro j hj
      have hjs := Finset.mem_range.mp hj
      have hb : i * seq + j < S.size := by
        rw [hsize]
        exact idx_lt _ _ _ _ hi hjs
      rw [ofFn_getD _ _ _ hb, if_pos (hsize ▸ hb), toQ_qv]
    rw [Finset.sum_congr rfl hterm,
      softmaxEntry_rowsum exp hexp S seq i ⟨i, hi, hdiag i hi⟩]
    norm_num

/-- Witness for C7 at a concrete two-token, one-head attention: `x=[1;2]`,
`wq=[1]`, `wk=[1]`, `scale=1`, `exp` instantiated by the constant-one
positive function. -/
theorem mha_causal_mask_softmax_witness :
    ((∀ q : ℚ, 0 < (fun _ : ℚ => (1 : ℚ)) q) ∧ 0 < 1 ∧
      FiniteUpTo #[qv 1, qv 2] (2 * (1 * 1)) ∧
      FiniteUpTo #[qv 1] ((1 * 1) * (1 * 1)) ∧
      FiniteUpTo #[qv 1] ((1 * 1) * (1 * 1))) ∧
    (∃ w : TBuf,
      softmaxForward (fun _ : ℚ => (1 : ℚ))
          ⟨headScores #[qv 1, qv 2] #[qv 1] #[qv 1] 2 1 1 0 (qv 1),
           [2, 2], false⟩ = some w ∧
      (∀ i j, i < 2 → j < 2 → i < j →
        w.data.getD (i * 2 + j) ⊥ = qv 0) ∧
      (∀ i, i < 2 →
        |(∑ j ∈ Finset.range 2, toQ (w.data.getD (i * 2 + j) ⊥)) - 1| ≤
          1 / 1000000)) := by
  have hx : FiniteUpTo #[qv 1, qv 2] (2 * (1 * 1)) := by
    intro t ht
    interval_cases t <;> simp [qv, Array.getD]
  have hw : FiniteUpTo #[qv 1] ((1 * 1) * (1 * 1)) := by
    intro t ht
    interval_cases t <;> simp [qv, Array.getD]
  exact ⟨⟨fun _ => one_pos, one_pos, hx, hw, hw⟩,
    mha_causal_mask_softmax (fun _ => (1 : ℚ)) (fun _ => one_pos)
      #[qv 1, qv 2] #[qv 1] #[qv 1] 2 1 1 0 1 one_pos hx hw hw⟩

/-! ## Losses.js (inside `src/slmnet/slmnet.js`, lines 98-146):
`cross_entropy_loss`

The integer-valued `targets` tensor is modelled by an `Array ℕ` of class
ids.  `Math.log` is the parameter `log`.  The forward pass applies
`Ops.softmax` to the logits, gathers each row's target probability floored
at `1e-9`, negates the logs, sums (`Ops.sum` reduces the buffer by
addition) and multiplies by the scalar tensor `1/batch_size` (the scalar
branch of `Ops.mul`), producing a `[1]`-shaped tensor.  The fused backward
closure overwrites the mul context: it copies the softmax probabilities,
subtracts 1 at each row's target column (modelled with multiplicity via a
filter count), divides by the batch size and scales by the upstream
scalar. -/

/-- Forward value of `cross_entropy_loss`. -/
def ceForward (exp log : ℚ → ℚ) (logits : TBuf) (targets : Array ℕ) :
    Option TBuf :=
  (softmaxForward exp logits).map fun probs =>
    let N := targets.size
    let V := probs.shape.getD 1 0
    ⟨#[qv ((∑ i ∈ Finset.range N,
        -(log (max (toQ (probs.data.getD (i * V + targets.getD i 0) ⊥))
            (1 / 1000000000)))) * (1 / (N : ℚ)))],
     [1], logits.requires_grad⟩

/-- Backward contribution of the fused `cross_entropy_loss` closure into
`logits.grad` (`(probs - onehot(targets)) / batch_size * upstream[0]`). -/
def ceBack (exp : ℚ → ℚ) (logits : TBuf) (targets : Array ℕ)
    (up : Array ℚ) : Array ℚ :=
  match softmaxForward exp logits with
  | none => #[]
  | some probs =>
    let N := targets.size
    let V := probs.shape.getD 1 0
    Array.ofFn fun t : Fin probs.data.size =>
      ((toQ (probs.data.getD t ⊥) -
          (((Finset.range N).filter
              fun i => (t : ℕ) = i * V + targets.getD i 0).card : ℚ))
        / (N : ℚ)) * up.getD 0 0

/-- The loss value as the claim states it: `(1/N)` times the sum over rows
of the negated log of the target-class softmax probability floored at
`1e-9` (the softmax being the library's row-wise stabilized softmax). -/
def ceValueSpec (exp log : ℚ → ℚ) (logits : TBuf) (targets : Array ℕ) : ℚ :=
  (1 / (targets.size : ℚ)) *
    ∑ i ∈ Finset.range targets.size,
      -(log (max (softmaxEntry exp logits.data (logits.shape.getD 1 0)
          (i * logits.shape.getD 1 0 + targets.getD i 0)) (1 / 1000000000)))

/-- C8 : For logits of shape `[N, V]` and integer targets of length `N`
with entries in `[0, V)`, `cross_entropy_loss` returns a size-1 tensor of
shape `[1]` whose value is `(1/N) * Σᵢ -log(max(softmax(logits)[i, tᵢ],
1e-9))`, and the fused backward closure contributes
`(probs[i,c] - 1[c = tᵢ]) / N * upstream[0]` to `logits.grad` at every
entry `(i, c)`. -/
theorem cross_entropy_spec (exp log : ℚ → ℚ) (logits : TBuf)
    (targets : Array ℕ) (up : Array ℚ) (N V : ℕ)
    (hshape : logits.shape = [N, V]) (hN : targets.size = N)
    (hsz : logits.data.size = N * V)
    (htgt : ∀ i, i < N → targets.getD i 0 < V) :
    (∃ l, ceForward exp log logits targets = some l ∧ l.shape = [1] ∧
      l.data.size = 1 ∧
      toQ (l.data.getD 0 ⊥) = ceValueSpec exp log logits targets) ∧
    (∀ i c, i < N → c < V →
      (ceBack exp logits targets up).getD (i * V + c) 0 =
        ((softmaxEntry exp logits.data V (i * V + c) -
          (if c = targets.getD i 0 then 1 else 0)) / (N : ℚ)) *
          up.getD 0 0) := by
  have hlen : logits.shape.length = 2 := by rw [hshape]; rfl
  have hrows : logits.shape.getD 0 0 = N := by rw [hshape]; rfl
  have hcols : logits.shape.getD 1 0 = V := by rw [hshape]; rfl
  have hsm : softmaxForward exp logits =
      some ⟨Array.ofFn fun idx : Fin logits.data.size =>
        if (idx : ℕ) < N * V then
          qv (softmaxEntry exp logits.data V idx)
        else 0, logits.shape, logits.requires_grad⟩ := by
    unfold softmaxForward
    rw [if_pos hlen]
    simp only [hrows, hcols]
  have hentry : ∀ i c, i < N → c < V →
      (Array.ofFn fun idx : Fin logits.data.size =>
        if (idx : ℕ) < N * V then
          qv (softmaxEntry exp logits.data V idx)
        else 0).getD (i * V + c) ⊥ =
        qv (softmaxEntry exp logits.data V (i * V + c)) := by
    intro i c hi hc
    have hb : i * V + c < logits.data.size := by
      rw [hsz]
      exact idx_lt _ _ _ _ hi hc
    rw [ofFn_getD _ _ _ hb, if_pos (hsz ▸ hb)]
  constructor
  · have hce : ceForward exp log logits targets =
        some ⟨#[qv ((∑ i ∈ Finset.range targets.size,
          -(log (max (toQ ((Array.ofFn fun idx : Fin logits.data.size =>
            if (idx : ℕ) < N * V then
              qv (softmaxEntry exp logits.data V idx)
            else 0).getD
              (i * logits.shape.getD 1 0 + targets.getD i 0) ⊥))
            (1 / 1000000000)))) * (1 / (targets.size : ℚ)))],
          [1], logits.requires_grad⟩ := by
      unfold ceForward
      rw [hsm, Option.map_some']
    refine ⟨_, hce, rfl, rfl, ?_⟩
    show toQ ((#[qv ((∑ i ∈ Finset.range targets.size,
        -(log (max (toQ ((Array.ofFn fun idx : Fin logits.data.size =>
          if (idx : ℕ) < N * V then
            qv (softmaxEntry exp logits.data V idx)
          else 0).getD
            (i * logits.shape.getD 1 0 + targets.getD i 0) ⊥))
          (1 / 1000000000)))) * (1 / (targets.size : ℚ)))] :
        Array Val).getD 0 ⊥) = _
    rw [show (#[qv ((∑ i ∈ Finset.range targets.size,
        -(log (max (toQ ((Array.ofFn fun idx : Fin logits.data.size =>
          if (idx : ℕ) < N * V then
            qv (softmaxEntry exp logits.data V idx)
          else 0).getD
            (i * logits.shape.getD 1 0 + targets.getD i 0) ⊥))
          (1 / 1000000000)))) * (1 / (targets.size : ℚ)))] :
        Array Val).getD 0 ⊥ =
        qv ((∑ i ∈ Finset.range targets.size,
          -(log (max (toQ ((Array.ofFn fun idx : Fin logits.data.size =>
            if (idx : ℕ) < N * V then
              qv (softmaxEntry exp logits.data V idx)
            else 0).getD
              (i * logits.shape.getD 1 0 + targets.getD i 0) ⊥))
            (1 / 1000000000)))) * (1 / (targets.size : ℚ))) from rfl,
      toQ_qv, ceValueSpec, mul_comm _ (1 / (targets.size : ℚ))]
    refine congrArg₂ _ rfl (Finset.sum_congr rfl fun i hi => ?_)
    have hiN : i < N := hN ▸ Finset.mem_range.mp hi
    rw [hcols, hentry i _ hiN (htgt i hiN), toQ_qv]
  · intro i c hi hc
    have hb : i * V + c < logits.data.size := by
      rw [hsz]
      exact idx_lt _ _ _ _ hi hc
    have hfilter : (((Finset.range targets.size).filter
        fun j => (i * V + c : ℕ) = j * V + targets.getD j 0).card : ℚ) =
        (if c = targets.getD i 0 then 1 else 0) := by
      by_cases hcc : c = targets.getD i 0
      · have hset : ((Finset.range targets.size).filter
            fun j => (i * V + c : ℕ) = j * V + targets.getD j 0) = {i} := by
          ext j
          simp only [Finset.mem_filter, Finset.mem_range, Finset.mem_singleton]
          constructor
          · rintro ⟨hjN, heq⟩
            have h1 := idx_div i c V hc
            have h2 := idx_div j (targets.getD j 0) V (htgt j (hN ▸ hjN))
            rw [heq, h2] at h1
            exact h1
          · rintro rfl
            exact ⟨hN ▸ hi, by rw [hcc]⟩
        rw [hset, if_pos hcc, Finset.card_singleton, Nat.cast_one]
      · have hset : ((Finset.range targets.size).filter
            fun j => (i * V + c : ℕ) = j * V + targets.getD j 0) = ∅ := by
          rw [Finset.filter_eq_empty_iff]
          intro j hjmem heq
          have hjN : j < N := hN ▸ Finset.mem_range.mp hjmem
          have h1 := idx_div i c V hc
          have h2 := idx_div j (targets.getD j 0) V (htgt j hjN)
          rw [heq, h2] at h1
          have h3 := idx_mod i c V hc
          rw [heq, idx_mod _ _ _ (htgt j hjN)] at h3
          apply hcc
          rw [← h1]
          exact h3.symm
        rw [hset, if_neg hcc, Finset.card_empty, Nat.cast_zero]
    have hbp : i * V + c <
        (Array.ofFn fun idx : Fin logits.data.size =>
          if (idx : ℕ) < N * V then
            qv (softmaxEntry exp logits.data V idx)
          else 0).size := by
      rw [Array.size_ofFn]
      exact hb
    have hcb : (ceBack exp logits targets up).getD (i * V + c) 0 =
        ((toQ ((Array.ofFn fun idx : Fin logits.data.size =>
            if (idx : ℕ) < N * V then
              qv (softmaxEntry exp logits.data V idx)
            else 0).getD (i * V + c) ⊥) -
          (((Finset.range targets.size).filter
              fun j => (i * V + c : ℕ) = j * V + targets.getD j 0).card : ℚ))
          / (targets.size : ℚ)) * up.getD 0 0 := by
      unfold ceBack
      rw [hsm]
      show (Array.ofFn _).getD _ _ = _
      rw [ofFn_getD _ _ _ hbp]
      rw [hcols]
    rw [hcb, hentry i c hi hc, toQ_qv, hfilter, hN]

/-- Witness for C8 at concrete data: logits `[[0, 0]]` of shape `[1, 2]`,
one target `0`, upstream `[1]`, with `exp = const 1` and `log = const 0`. -/
theorem cross_entropy_spec_witness :
    ((⟨#[qv 0, qv 0], [1, 2], true⟩ : TBuf).shape = [1, 2] ∧
     (#[(0 : ℕ)] : Array ℕ).size = 1 ∧
     (⟨#[qv 0, qv 0], [1, 2], true⟩ : TBuf).data.size = 1 * 2 ∧
     (∀ i, i < 1 → (#[(0 : ℕ)] : Array ℕ).getD i 0 < 2)) ∧
    ((∃ l, ceForward (fun _ : ℚ => 1) (fun _ : ℚ => 0)
        ⟨#[qv 0, qv 0], [1, 2], true⟩ #[(0 : ℕ)] = some l ∧
      l.shape = [1] ∧ l.data.size = 1 ∧
      toQ (l.data.getD 0 ⊥) =
        ceValueSpec (fun _ : ℚ => 1) (fun _ : ℚ => 0)
          ⟨#[qv 0, qv 0], [1, 2], true⟩ #[(0 : ℕ)]) ∧
    (∀ i c, i < 1 → c < 2 →
      (ceBack (fun _ : ℚ => 1) ⟨#[qv 0, qv 0], [1, 2], true⟩
          #[(0 : ℕ)] #[1]).getD (i * 2 + c) 0 =
        ((softmaxEntry (fun _ : ℚ => 1)
            (⟨#[qv 0, qv 0], [1, 2], true⟩ : TBuf).data 2 (i * 2 + c) -
          (if c = (#[(0 : ℕ)] : Array ℕ).getD i 0 then 1 else 0)) / (1 : ℚ)) *
          (#[(1 : ℚ)] : Array ℚ).getD 0 0)) := by
  refine ⟨⟨rfl, rfl, rfl, by decide⟩, ?_⟩
  have h := cross_entropy_spec (fun _ : ℚ => 1) (fun _ : ℚ => 0)
    ⟨#[qv 0, qv 0], [1, 2], true⟩ #[(0 : ℕ)] #[1] 1 2 rfl rfl rfl (by decide)
  exact ⟨h.1, fun i c hi hc => by
    have := h.2 i c hi hc
    simpa using this⟩

/-! ## Tensor.js (`src/unnamed/part_000`): the graph and `Tensor.backward`

Every `new Tensor(...)` object of a run is a slot of an arena, in creation
order; JS object identity becomes the slot index.  A context stores its
input indices and the backward closure, modelled as a function from the
upstream gradient buffer to a list of `(input index, contribution)` pairs;
the engine adds a contribution into an input's gradient buffer exactly when
that input has `requires_grad` (the `if (x.requires_grad)` guard every
closure carries; the un-guarded `_combine_heads` closure would crash in JS
on a gradient-less head, a state no covered execution reaches).  `gradOwner`
models the buffer sharing of the spec's `reshape` views: a view's gradient
buffer is its source's.

Because the graph is built eagerly, every context input was created before
its node; `GWF` states this (inputs have smaller indices), which is the
form in which the DAG hypothesis of C1 enters the embedding. -/

/-- A backward closure: upstream gradient to per-input contributions. -/
structure Ctx where
  inputs : List ℕ
  back : Array ℚ → List (ℕ × Array ℚ)

/-- One tensor object: data, shape, `requires_grad`, optional gradient
buffer, the slot owning its gradient buffer (itself unless the tensor is a
reshape view), and the optional context. -/
structure Node where
  data : Array Val
  shape : List ℕ
  requires_grad : Bool
  grad : Option (Array ℚ)
  gradOwner : ℕ
  ctx : Option Ctx

/-- The placeholder node for out-of-range reads (never hit by the covered
executions). -/
def dNode : Node := ⟨#[], [], false, none, 0, none⟩

/-- Node lookup in an arena. -/
def nodeAt (a : Array Node) (i : ℕ) : Node := a.getD i dNode

/-- The context of a slot. -/
def ctxOf (a : Array Node) (i : ℕ) : Option Ctx := (nodeAt a i).ctx

/-- The context inputs of a slot (`[]` when there is no context). -/
def inputsOf (a : Array Node) (i : ℕ) : List ℕ :=
  match ctxOf a i with
  | none => []
  | some c => c.inputs

/-- A slot has a context. -/
def hasCtx (a : Array Node) (i : ℕ) : Prop := (ctxOf a i).isSome = true

/-- Eager-construction well-formedness: context inputs have smaller slot
indices than their node.  This is how the implicit-graph-is-a-DAG
hypothesis of the backward claims is presented. -/
def GWF (a : Array Node) : Prop :=
  ∀ i, i < a.size → ∀ j ∈ inputsOf a i, j < i

theorem inputsOf_out (a : Array Node) (i : ℕ) (h : ¬ i < a.size) :
    inputsOf a i = [] := by
  unfold inputsOf ctxOf nodeAt Array.getD
  rw [dif_neg h]
  rfl

theorem gwf_lt {a : Array Node} (hw : GWF a) (i j : ℕ)
    (hj : j ∈ inputsOf a i) : j < i := by
  by_cases h : i < a.size
  · exact hw i h j hj
  · rw [inputsOf_out a i h] at hj
    cases hj

theorem inputsOf_some {a : Array Node} {i : ℕ} {c : Ctx}
    (hc : ctxOf a i = some c) : inputsOf a i = c.inputs := by
  unfold inputsOf
  rw [hc]

/-! The graph-building depth-first traversal of `Tensor.backward` (lines
51-63): skip visited tensors, mark the tensor visited, recurse into the
context inputs, then append the tensor to the sorted list (tensors without
context are marked but not appended).  The state is
`(visited, sortedGraph)`.  Termination: recursion only descends to
strictly smaller slot indices (`GWF`). -/

mutual

def dfsVisit (a : Array Node) (hw : GWF a) (st : List ℕ × List ℕ)
    (i : ℕ) : List ℕ × List ℕ :=
  if i ∈ st.1 then st
  else
    let st1 := (i :: st.1, st.2)
    match hc : ctxOf a i with
    | none => st1
    | some c =>
      let st2 := dfsList a hw i c.inputs
        (fun j hj => gwf_lt hw i j ((inputsOf_some hc) ▸ hj)) st1
      (st2.1, st2.2 ++ [i])
termination_by (i, 1, 0)
decreasing_by
  exact Prod.Lex.right _ (Prod.Lex.left _ _ Nat.zero_lt_one)

def dfsList (a : Array Node) (hw : GWF a) (i : ℕ) (l : List ℕ)
    (hl : ∀ j ∈ l, j < i) (st : List ℕ × List ℕ) : List ℕ × List ℕ :=
  match l with
  | [] => st
  | j :: rest =>
    dfsList a hw i rest (fun k hk => hl k (List.mem_cons_of_mem _ hk))
      (dfsVisit a hw st j)
termination_by (i, 0, l.length)
decreasing_by
  all_goals first
    | (apply Prod.Lex.right
       apply Prod.Lex.right
       exact Nat.lt_succ_self _)
    | (apply Prod.Lex.left
       exact hl j (List.mem_cons_self j rest))

end

/-- The sorted graph produced by `Tensor.backward` before the reverse
iteration. -/
def backwardSorted (a : Array Node) (hw : GWF a) (r : ℕ) : List ℕ :=
  (dfsVisit a hw ([], []) r).2

/-- All-one gradient buffer of length `n` (`Tensor.ones(this.shape)`). -/
def onesQ (n : ℕ) : Array ℚ := Array.mkArray n 1

/-- In-place gradient accumulation `x.grad.data[t] += delta[t]` over the
gradient buffer's length. -/
def accGrad (g δ : Array ℚ) : Array ℚ :=
  Array.ofFn fun t : Fin g.size => g.getD t 0 + δ.getD t 0

/-- The gradient buffer a tensor reads and writes: the buffer of its
`gradOwner` (itself unless the tensor is a reshape view). -/
def gradBufOf (a : Array Node) (u : ℕ) : Array ℚ :=
  match (nodeAt a ((nodeAt a u).gradOwner)).grad with
  | none => #[]
  | some g => g

/-- Accumulate a closure's contribution into input `p`'s gradient buffer,
guarded by `p.requires_grad` as every closure's guard is. -/
def addIntoGrad (a : Array Node) (p : ℕ) (δ : Array ℚ) : Array Node :=
  if (nodeAt a p).requires_grad then
    let o := (nodeAt a p).gradOwner
    let n := nodeAt a o
    match n.grad with
    | none => a
    | some g => a.setD o { n with grad := some (accGrad g δ) }
  else a

/-- One step of the reverse loop of `Tensor.backward` (lines 71-80): if the
tensor has a context, call its backward closure with the tensor's current
accumulated gradient and accumulate the returned contributions into the
closure's inputs. -/
def applyCtx (a : Array Node) (u : ℕ) : Array Node :=
  match ctxOf a u with
  | none => a
  | some c =>
    (c.back (gradBufOf a u)).foldl
      (fun acc pd => if pd.1 ∈ c.inputs then addIntoGrad acc pd.1 pd.2
        else acc) a

/-- Setting the root's own gradient to all-ones before the reverse loop
(`this.grad = Tensor.ones(this.shape)` — a fresh buffer, so the slot owns
its gradient again). -/
def setRootGrad (a : Array Node) (r : ℕ) : Array Node :=
  let n := nodeAt a r
  a.setD r { n with grad := some (onesQ n.shape.prod), gradOwner := r }

/-- The reverse loop over the sorted graph. -/
def backwardRun (a : Array Node) (sorted : List ℕ) (r : ℕ) : Array Node :=
  sorted.reverse.foldl applyCtx (setRootGrad a r)

/-- The whole `Tensor.backward` (lines 40-81): fails (`none`) unless the
root requires gradients and is scalar; otherwise builds the sorted graph,
sets the root gradient to ones and runs the reverse loop. -/
def tensorBackward (a : Array Node) (hw : GWF a) (r : ℕ) :
    Option (Array Node) :=
  if (nodeAt a r).requires_grad = true then
    if (nodeAt a r).data.size = 1 then
      some (backwardRun a (backwardSorted a hw r) r)
    else none
  else none

/-- Reachability from `r` along context inputs (the implicit graph). -/
inductive Reach (a : Array Node) (r : ℕ) : ℕ → Prop
  | refl : Reach a r r
  | step {u v : ℕ} : Reach a r u → v ∈ inputsOf a u → Reach a r v

theorem Reach.trans {a : Array Node} {r u x : ℕ}
    (h1 : Reach a r u) (h2 : Reach a u x) : Reach a r x := by
  induction h2 with
  | refl => exact h1
  | step _ hv ih => exact Reach.step ih hv

/-! DFS correctness.  `DfsInv a S st` is the invariant of the traversal
state `(visited, sorted)` relative to the pending stack `S` (the chain of
ancestors currently being expanded, each marked visited but not yet
appended): the sorted list is duplicate-free, contains only visited
context-bearing non-pending nodes, every non-pending visited node is fully
processed (its inputs visited, itself appended if it has a context), and
appended nodes appear after their context-bearing inputs. -/

structure DfsInv (a : Array Node) (S : List ℕ) (st : List ℕ × List ℕ) :
    Prop where
  nodup : st.2.Nodup
  sub : ∀ u ∈ st.2, u ∈ st.1
  hctx : ∀ u ∈ st.2, hasCtx a u
  notS : ∀ u ∈ st.2, u ∉ S
  complete : ∀ u ∈ st.1, u ∉ S →
    (hasCtx a u → u ∈ st.2) ∧ ∀ v ∈ inputsOf a u, v ∈ st.1
  ordered : ∀ u ∈ st.2, ∀ v ∈ inputsOf a u, hasCtx a v →
    List.Sublist [v, u] st.2

/-- The specification of one `dfsVisit` call: it preserves the invariant,
grows the visited set monotonically, only appends to the sorted list,
marks its argument visited, and visits only nodes reachable from its
argument. -/
def VisitSpec (a : Array Node) (hw : GWF a) (i : ℕ) : Prop :=
  ∀ S st, DfsInv a S st → (∀ s ∈ S, i < s) →
    DfsInv a S (dfsVisit a hw st i) ∧
    (∀ x ∈ st.1, x ∈ (dfsVisit a hw st i).1) ∧
    (∃ Δ, (dfsVisit a hw st i).2 = st.2 ++ Δ) ∧
    i ∈ (dfsVisit a hw st i).1 ∧
    (∀ x ∈ (dfsVisit a hw st i).1, x ∈ st.1 ∨ Reach a i x)

theorem dfsList_spec (a : Array Node) (hw : GWF a) (i : ℕ)
    (hvs : ∀ j, j < i → VisitSpec a hw j) :
    ∀ (l : List ℕ) (hl : ∀ j ∈ l, j < i) (S : List ℕ)
      (st : List ℕ × List ℕ), DfsInv a S st →
      (∀ j ∈ l, ∀ s ∈ S, j < s) →
      DfsInv a S (dfsList a hw i l hl st) ∧
      (∀ x ∈ st.1, x ∈ (dfsList a hw i l hl st).1) ∧
      (∃ Δ, (dfsList a hw i l hl st).2 = st.2 ++ Δ) ∧
      (∀ j ∈ l, j ∈ (dfsList a hw i l hl st).1) ∧
      (∀ x ∈ (dfsList a hw i l hl st).1,
        x ∈ st.1 ∨ ∃ j ∈ l, Reach a j x) := by
  intro l
  induction l with
  | nil =>
    intro hl S st hInv hls
    simp only [dfsList]
    exact ⟨hInv, fun x hx => hx, ⟨[], (List.append_nil _).symm⟩,
      fun j hj => absurd hj (List.not_mem_nil j), fun x hx => Or.inl hx⟩
  | cons j rest ih =>
    intro hl S st hInv hls
    have hj : j < i := hl j (List.mem_cons_self j rest)
    have hv := hvs j hj S st hInv
      (fun s hs => hls j (List.mem_cons_self j rest) s hs)
    have hr := ih (fun k hk => hl k (List.mem_cons_of_mem _ hk)) S
      (dfsVisit a hw st j) hv.1
      (fun k hk s hs => hls k (List.mem_cons_of_mem _ hk) s hs)
    have hd : dfsList a hw i (j :: rest) hl st =
        dfsList a hw i rest (fun k hk => hl k (List.mem_cons_of_mem _ hk))
          (dfsVisit a hw st j) := by
      simp only [dfsList]
    rw [hd]
    refine ⟨hr.1, ?_, ?_, ?_, ?_⟩
    · intro x hx
      exact hr.2.1 x (hv.2.1 x hx)
    · obtain ⟨d1, hd1⟩ := hv.2.2.1
      obtain ⟨d2, hd2⟩ := hr.2.2.1
      exact ⟨d1 ++ d2, by rw [hd2, hd1, List.append_assoc]⟩
    · intro k hk
      rcases List.mem_cons.mp hk with h | h
      · subst h
        exact hr.2.1 k hv.2.2.2.1
      · exact hr.2.2.2.1 k h
    · intro x hx
      rcases hr.2.2.2.2 x hx with h | ⟨k, hk, hrk⟩
      · rcases hv.2.2.2.2 x h with h2 | h2
        · exact Or.inl h2
        · exact Or.inr ⟨j, List.mem_cons_self j rest, h2⟩
      · exact Or.inr ⟨k, List.mem_cons_of_mem _ hk, hrk⟩

theorem dfsVisit_spec (a : Array Node) (hw : GWF a) :
    ∀ i : ℕ, VisitSpec a hw i := by
  intro i
  induction i using Nat.strong_induction_on with
  | _ i IH =>
  intro S st hInv hS
  by_cases hvis : i ∈ st.1
  · have hd : dfsVisit a hw st i = st := by
      simp only [dfsVisit]
      rw [if_pos hvis]
    rw [hd]
    exact ⟨hInv, fun x hx => hx, ⟨[], (List.append_nil _).symm⟩, hvis,
      fun x hx => Or.inl hx⟩
  · cases hctx : ctxOf a i with
    | none =>
      have hnotc : ¬ hasCtx a i := by
        unfold hasCtx
        rw [hctx]
        simp
      have hinp : inputsOf a i = [] := by
        unfold inputsOf
        rw [hctx]
      have hd : dfsVisit a hw st i = (i :: st.1, st.2) := by
        simp only [dfsVisit]
        rw [if_neg hvis]
        split
        · rfl
        · next c heq =>
          rw [hctx] at heq
          exact Option.noConfusion heq
      rw [hd]
      refine ⟨?_, fun x hx => List.mem_cons_of_mem _ hx,
        ⟨[], (List.append_nil _).symm⟩, List.mem_cons_self _ _, ?_⟩
      · refine ⟨hInv.nodup, fun u hu => List.mem_cons_of_mem _ (hInv.sub u hu),
          hInv.hctx, hInv.notS, ?_, hInv.ordered⟩
        intro u hu huS
        rcases List.mem_cons.mp hu with h | h
        · subst h
          refine ⟨fun hc => absurd hc hnotc, ?_⟩
          rw [hinp]
          intro v hv
          cases hv
        · exact ⟨(hInv.complete u h huS).1,
            fun v hv => List.mem_cons_of_mem _ ((hInv.complete u h huS).2 v hv)⟩
      · intro x hx
        rcases List.mem_cons.mp hx with h | h
        · subst h
          exact Or.inr Reach.refl
        · exact Or.inl h
    | some c =>
      have hlt : ∀ j ∈ c.inputs, j < i :=
        fun j hj => gwf_lt hw i j ((inputsOf_some hctx) ▸ hj)
      have hinp : inputsOf a i = c.inputs := inputsOf_some hctx
      have hci : hasCtx a i := by
        unfold hasCtx
        rw [hctx]
        rfl
      have hd : dfsVisit a hw st i =
          ((dfsList a hw i c.inputs hlt (i :: st.1, st.2)).1,
           (dfsList a hw i c.inputs hlt (i :: st.1, st.2)).2 ++ [i]) := by
        simp only [dfsVisit]
        rw [if_neg hvis]
        split
        · next heq =>
          rw [hctx] at heq
          exact Option.noConfusion heq
        · next c' heq =>
          rw [hctx] at heq
          injection heq with h
          subst h
          rfl
      have hInv1 : DfsInv a (i :: S) (i :: st.1, st.2) := by
        refine ⟨hInv.nodup, fun u hu => List.mem_cons_of_mem _ (hInv.sub u hu),
          hInv.hctx, ?_, ?_, hInv.ordered⟩
        · intro u hu hmem
          rcases List.mem_cons.mp hmem with h | h
          · subst h
            exact hvis (hInv.sub u hu)
          · exact hInv.notS u hu h
        · intro u hu huS
          have hune : u ≠ i := fun h => huS (h ▸ List.mem_cons_self i S)
          have hust : u ∈ st.1 := by
            rcases List.mem_cons.mp hu with h | h
            · exact absurd h hune
            · exact h
          have huS' : u ∉ S := fun h => huS (List.mem_cons_of_mem _ h)
          exact ⟨(hInv.complete u hust huS').1,
            fun v hv => List.mem_cons_of_mem _
              ((hInv.complete u hust huS').2 v hv)⟩
      have hls := dfsList_spec a hw i (fun j hj => IH j hj) c.inputs hlt
        (i :: S) (i :: st.1, st.2) hInv1
        (by
          intro j hj s hs
          rcases List.mem_cons.mp hs with h | h
          · subst h
            exact hlt j hj
          · exact lt_trans (hlt j hj) (hS s h))
      rw [hd]
      have hiT2 : i ∉ (dfsList a hw i c.inputs hlt (i :: st.1, st.2)).2 :=
        fun h => hls.1.notS i h (List.mem_cons_self i S)
      have hiT1 : i ∈ (dfsList a hw i c.inputs hlt (i :: st.1, st.2)).1 :=
        hls.2.1 i (List.mem_cons_self i st.1)
      refine ⟨?_, ?_, ?_, hiT1, ?_⟩
      · refine ⟨?_, ?_, ?_, ?_, ?_, ?_⟩
        · rw [List.nodup_append]
          exact ⟨hls.1.nodup, List.nodup_singleton i,
            fun x hx hxi => hiT2 ((List.mem_singleton.mp hxi) ▸ hx)⟩
        · intro u hu
          rcases List.mem_append.mp hu with h | h
          · exact hls.1.sub u h
          · exact (List.mem_singleton.mp h) ▸ hiT1
        · intro u hu
          rcases List.mem_append.mp hu with h | h
          · exact hls.1.hctx u h
          · exact (List.mem_singleton.mp h) ▸ hci
        · intro u hu
          rcases List.mem_append.mp hu with h | h
          · exact fun hS' => hls.1.notS u h (List.mem_cons_of_mem _ hS')
          · rw [List.mem_singleton.mp h]
            exact fun hiS => absurd (hS i hiS) (lt_irrefl i)
        · intro u hu huS
          by_cases hui : u = i
          · subst hui
            refine ⟨fun _ => List.mem_append_right _ (List.mem_singleton_self u), ?_⟩
            rw [hinp]
            exact fun v hv => hls.2.2.2.1 v hv
          · have h2 := hls.1.complete u hu (by
              intro hmem
              rcases List.mem_cons.mp hmem with h | h
              · exact hui h
              · exact huS h)
            exact ⟨fun hc => List.mem_append_left _ (h2.1 hc), h2.2⟩
        · intro u hu v hv hcv
          rcases List.mem_append.mp hu with h | h
          · exact (hls.1.ordered u h v hv hcv).trans
              (List.sublist_append_left _ _)
          · rw [List.mem_singleton.mp h] at hv ⊢
            rw [hinp] at hv
            have hvlt : v < i := hlt v hv
            have hvT1 : v ∈ (dfsList a hw i c.inputs hlt (i :: st.1, st.2)).1 :=
              hls.2.2.2.1 v hv
            have hvT2 : v ∈ (dfsList a hw i c.inputs hlt (i :: st.1, st.2)).2 := by
              refine (hls.1.complete v hvT1 ?_).1 hcv
              intro hmem
              rcases List.mem_cons.mp hmem with h2 | h2
              · exact absurd (h2 ▸ hvlt) (lt_irrefl i)
              · exact absurd (hS v h2) (not_lt_of_lt hvlt)
            exact List.Sublist.append (List.singleton_sublist.mpr hvT2)
              (List.Sublist.refl [i])
      · intro x hx
        exact hls.2.1 x (List.mem_cons_of_mem _ hx)
      · obtain ⟨d, hdel⟩ := hls.2.2.1
        exact ⟨d ++ [i], by rw [hdel, List.append_assoc]⟩
      · intro x hx
        rcases hls.2.2.2.2 x hx with h | ⟨j, hj, hrj⟩
        · rcases List.mem_cons.mp h with h2 | h2
          · exact Or.inr (h2 ▸ Reach.refl)
          · exact Or.inl h2
        · exact Or.inr (Reach.trans (Reach.step Reach.refl (hinp ▸ hj)) hrj)

theorem nodeAt_out (a : Array Node) (r : ℕ) (h : ¬ r < a.size) :
    nodeAt a r = dNode := by
  unfold nodeAt Array.getD
  rw [dif_neg h]

theorem hasCtx_of_mem_inputs {a : Array Node} {u v : ℕ}
    (h : v ∈ inputsOf a u) : hasCtx a u := by
  unfold hasCtx
  cases hc : ctxOf a u with
  | none =>
    rw [inputsOf, hc] at h
    cases h
  | some c => rfl

theorem nodeAt_setD_self (a : Array Node) (i : ℕ) (v : Node)
    (h : i < a.size) : nodeAt (a.setD i v) i = v := by
  unfold nodeAt Array.setD Array.getD
  rw [dif_pos h]
  have hs : i < (a.set ⟨i, h⟩ v).size := by simpa using h
  rw [dif_pos hs]
  simp

theorem nodeAt_setD_ne (a : Array Node) (i j : ℕ) (v : Node)
    (hne : j ≠ i) : nodeAt (a.setD i v) j = nodeAt a j := by
  by_cases hi : i < a.size
  · have hsd : a.setD i v = a.set ⟨i, hi⟩ v := by
      unfold Array.setD
      rw [dif_pos hi]
    unfold nodeAt Array.getD
    rw [hsd]
    by_cases hj : j < a.size
    · rw [dif_pos (show j < (a.set ⟨i, hi⟩ v).size by simpa using hj),
        dif_pos hj]
      exact Array.get_set_ne a ⟨i, hi⟩ v hj (Ne.symm hne)
    · rw [dif_neg (show ¬ j < (a.set ⟨i, hi⟩ v).size by simpa using hj),
        dif_neg hj]
  · have hsd : a.setD i v = a := by
      unfold Array.setD
      rw [dif_neg hi]
    rw [hsd]

theorem gradBufOf_setRoot (a : Array Node) (r : ℕ) (hr : r < a.size) :
    gradBufOf (setRootGrad a r) r = onesQ (nodeAt a r).shape.prod := by
  have h1 : nodeAt (setRootGrad a r) r =
      ⟨(nodeAt a r).data, (nodeAt a r).shape, (nodeAt a r).requires_grad,
        some (onesQ (nodeAt a r).shape.prod), r, (nodeAt a r).ctx⟩ := by
    unfold setRootGrad
    exact nodeAt_setD_self _ _ _ hr
  unfold gradBufOf
  rw [h1]
  show (match (nodeAt (setRootGrad a r) r).grad with
    | none => #[]
    | some g => g) = _
  rw [h1]

/-- C1 : For every scalar tensor with `requires_grad = true` whose implicit
graph (via `ctx.inputs`) is a DAG (eagerly built: `GWF`), `backward()`
succeeds and equals the reverse fold of the backward rules over the
depth-first post-order list `backwardSorted` (each rule receiving the
node's current accumulated gradient, by the definition of `applyCtx`),
after the root's gradient buffer is set to all-ones.  The list contains
each context-bearing node reachable from the root exactly once (it is
duplicate-free and membership is equivalent to reachability plus having a
context), and it is a valid reverse topological order: every context-bearing
input `v` of a node `u` of the list appears strictly before `u`, so in the
reverse iteration every consumer of `v` reachable from the root runs before
`v` does. -/
theorem tensor_backward_spec (a : Array Node) (hw : GWF a) (r : ℕ)
    (hrg : (nodeAt a r).requires_grad = true)
    (hsc : (nodeAt a r).data.size = 1) :
    tensorBackward a hw r =
      some ((backwardSorted a hw r).reverse.foldl applyCtx
        (setRootGrad a r)) ∧
    gradBufOf (setRootGrad a r) r = onesQ (nodeAt a r).shape.prod ∧
    (backwardSorted a hw r).Nodup ∧
    (∀ u, u ∈ backwardSorted a hw r ↔ Reach a r u ∧ hasCtx a u) ∧
    (∀ u ∈ backwardSorted a hw r, ∀ v ∈ inputsOf a u, hasCtx a v →
      List.Sublist [v, u] (backwardSorted a hw r)) ∧
    (∀ v ∈ backwardSorted a hw r, ∀ u, Reach a r u → v ∈ inputsOf a u →
      List.Sublist [u, v] (backwardSorted a hw r).reverse) := by
  have hr : r < a.size := by
    by_contra h
    rw [nodeAt_out a r h] at hsc
    exact absurd hsc (by decide)
  have hInv0 : DfsInv a [] ([], []) := by
    refine ⟨List.nodup_nil, ?_, ?_, ?_, ?_, ?_⟩ <;>
      first
        | (intro u hu; cases hu)
        | (intro u hu v hv; cases hu)
  have hspec := dfsVisit_spec a hw r [] ([], []) hInv0
    (fun s hs => absurd hs (List.not_mem_nil s))
  have hreach1 : ∀ x, Reach a r x → x ∈ (dfsVisit a hw ([], []) r).1 := by
    intro x hx
    induction hx with
    | refl => exact hspec.2.2.2.1
    | @step u v hu hv ih =>
      exact (hspec.1.complete u ih (List.not_mem_nil u)).2 v hv
  have hmem : ∀ u, u ∈ backwardSorted a hw r ↔ Reach a r u ∧ hasCtx a u := by
    intro u
    constructor
    · intro hu
      refine ⟨?_, hspec.1.hctx u hu⟩
      rcases hspec.2.2.2.2 u (hspec.1.sub u hu) with h | h
      · cases h
      · exact h
    · rintro ⟨hre, hc⟩
      exact (hspec.1.complete u (hreach1 u hre) (List.not_mem_nil u)).1 hc
  refine ⟨?_, gradBufOf_setRoot a r hr, hspec.1.nodup, hmem, ?_, ?_⟩
  · unfold tensorBackward
    rw [if_pos hrg, if_pos hsc]
    rfl
  · intro u hu v hv hcv
    exact hspec.1.ordered u hu v hv hcv
  · intro v hv u hru hvu
    have hcu : hasCtx a u := hasCtx_of_mem_inputs hvu
    have huS : u ∈ backwardSorted a hw r := (hmem u).mpr ⟨hru, hcu⟩
    have h := hspec.1.ordered u huS v hvu (hspec.1.hctx v hv)
    exact h.reverse

/-- Witness for C1 at a three-node chain `loss(2) ← y(1) ← w(0)` with the
identity pass-through rules. -/
theorem tensor_backward_spec_witness :
    (GWF #[(⟨#[qv 5], [1], true, some #[0], 0, none⟩ : Node),
           ⟨#[qv 5], [1], true, some #[0], 1,
             some ⟨[0], fun up => [(0, up)]⟩⟩,
           ⟨#[qv 5], [1], true, some #[0], 2,
             some ⟨[1], fun up => [(1, up)]⟩⟩] ∧
     (nodeAt #[(⟨#[qv 5], [1], true, some #[0], 0, none⟩ : Node),
           ⟨#[qv 5], [1], true, some #[0], 1,
             some ⟨[0], fun up => [(0, up)]⟩⟩,
           ⟨#[qv 5], [1], true, some #[0], 2,
             some ⟨[1], fun up => [(1, up)]⟩⟩] 2).requires_grad = true ∧
     (nodeAt #[(⟨#[qv 5], [1], true, some #[0], 0, none⟩ : Node),
           ⟨#[qv 5], [1], true, some #[0], 1,
             some ⟨[0], fun up => [(0, up)]⟩⟩,
           ⟨#[qv 5], [1], true, some #[0], 2,
             some ⟨[1], fun up => [(1, up)]⟩⟩] 2).data.size = 1) ∧
    ∀ (hw : GWF #[(⟨#[qv 5], [1], true, some #[0], 0, none⟩ : Node),
           ⟨#[qv 5], [1], true, some #[0], 1,
             some ⟨[0], fun up => [(0, up)]⟩⟩,
           ⟨#[qv 5], [1], true, some #[0], 2,
             some ⟨[1], fun up => [(1, up)]⟩⟩]),
      (backwardSorted #[(⟨#[qv 5], [1], true, some #[0], 0, none⟩ : Node),
           ⟨#[qv 5], [1], true, some #[0], 1,
             some ⟨[0], fun up => [(0, up)]⟩⟩,
           ⟨#[qv 5], [1], true, some #[0], 2,
             some ⟨[1], fun up => [(1, up)]⟩⟩] hw 2).Nodup := by
  have hwf : GWF #[(⟨#[qv 5], [1], true, some #[0], 0, none⟩ : Node),
           ⟨#[qv 5], [1], true, some #[0], 1,
             some ⟨[0], fun up => [(0, up)]⟩⟩,
           ⟨#[qv 5], [1], true, some #[0], 2,
             some ⟨[1], fun up => [(1, up)]⟩⟩] := by
    unfold GWF
    decide
  refine ⟨⟨hwf, rfl, rfl⟩, fun hw => ?_⟩
  exact (tensor_backward_spec _ hw 2 rfl rfl).2.2.1

/-! Structural facts about the reverse pass: it only rewrites gradient
buffers, so contexts, sizes and the well-formedness of the graph are
preserved, and a second `backward()` call traverses the same graph. -/

theorem setD_size {α : Type} (a : Array α) (i : ℕ) (v : α) :
    (a.setD i v).size = a.size := by
  unfold Array.setD
  split
  · simp
  · rfl

/-- Effect of one guarded accumulation: either the arena is unchanged at
`i`, or `i` is the written owner slot and only its gradient changed. -/
theorem addIntoGrad_cases (a : Array Node) (p : ℕ) (δ : Array ℚ) (i : ℕ) :
    nodeAt (addIntoGrad a p δ) i = nodeAt a i ∨
    (∃ g, (nodeAt a i).grad = some g ∧
      nodeAt (addIntoGrad a p δ) i =
        ⟨(nodeAt a i).data, (nodeAt a i).shape, (nodeAt a i).requires_grad,
          some (accGrad g δ), (nodeAt a i).gradOwner, (nodeAt a i).ctx⟩ ∧
      i = (nodeAt a p).gradOwner) := by
  unfold addIntoGrad
  by_cases hrg : (nodeAt a p).requires_grad = true
  · rw [if_pos hrg]
    cases hg : (nodeAt a ((nodeAt a p).gradOwner)).grad with
    | none =>
      simp only [hg]
      exact Or.inl trivial
    | some g =>
      simp only [hg]
      by_cases hio : i = (nodeAt a p).gradOwner
      · by_cases hlt : (nodeAt a p).gradOwner < a.size
        · refine Or.inr ⟨g, ?_, ?_, hio⟩
          · rw [hio]
            exact hg
          · rw [hio, nodeAt_setD_self _ _ _ hlt]
        · rw [show a.setD ((nodeAt a p).gradOwner) _ = a from by
            unfold Array.setD; rw [dif_neg hlt]]
          exact Or.inl rfl
      · rw [nodeAt_setD_ne _ _ _ _ hio]
        exact Or.inl rfl
  · rw [if_neg hrg]
    exact Or.inl rfl

theorem addIntoGrad_size (a : Array Node) (p : ℕ) (δ : Array ℚ) :
    (addIntoGrad a p δ).size = a.size := by
  unfold addIntoGrad
  by_cases hrg : (nodeAt a p).requires_grad = true
  · rw [if_pos hrg]
    cases hg : (nodeAt a ((nodeAt a p).gradOwner)).grad with
    | none =>
      simp only [hg]
    | some g =>
      simp only [hg]
      exact setD_size _ _ _
  · rw [if_neg hrg]

theorem ctxOf_addIntoGrad (a : Array Node) (p : ℕ) (δ : Array ℚ) (i : ℕ) :
    ctxOf (addIntoGrad a p δ) i = ctxOf a i := by
  rcases addIntoGrad_cases a p δ i with h | ⟨g, _, h, _⟩ <;>
    (unfold ctxOf; rw [h])

theorem addIntoGrad_untouched (a : Array Node) (p : ℕ) (δ : Array ℚ)
    (i : ℕ) (h : i ≠ (nodeAt a p).gradOwner) :
    nodeAt (addIntoGrad a p δ) i = nodeAt a i := by
  rcases addIntoGrad_cases a p δ i with h2 | ⟨g, _, _, h2⟩
  · exact h2
  · exact absurd h2 h

theorem contribFold_size (l : List (ℕ × Array ℚ)) (ins : List ℕ) :
    ∀ a : Array Node,
      (l.foldl (fun acc pd => if pd.1 ∈ ins then addIntoGrad acc pd.1 pd.2
        else acc) a).size = a.size := by
  induction l with
  | nil => intro a; rfl
  | cons pd rest ih =>
    intro a
    rw [List.foldl_cons, ih]
    split
    · exact addIntoGrad_size _ _ _
    · rfl

theorem ctxOf_contribFold (l : List (ℕ × Array ℚ)) (ins : List ℕ) :
    ∀ (a : Array Node) (i : ℕ),
      ctxOf (l.foldl (fun acc pd => if pd.1 ∈ ins then addIntoGrad acc pd.1 pd.2
        else acc) a) i = ctxOf a i := by
  induction l with
  | nil => intro a i; rfl
  | cons pd rest ih =>
    intro a i
    rw [List.foldl_cons, ih]
    split
    · exact ctxOf_addIntoGrad _ _ _ _
    · rfl

theorem applyCtx_size (a : Array Node) (u : ℕ) :
    (applyCtx a u).size = a.size := by
  unfold applyCtx
  split
  · rfl
  · exact contribFold_size _ _ _

theorem ctxOf_applyCtx (a : Array Node) (u i : ℕ) :
    ctxOf (applyCtx a u) i = ctxOf a i := by
  unfold applyCtx
  split
  · rfl
  · exact ctxOf_contribFold _ _ _ _

theorem setRootGrad_size (a : Array Node) (r : ℕ) :
    (setRootGrad a r).size = a.size := by
  unfold setRootGrad
  exact setD_size _ _ _

theorem ctxOf_setRootGrad (a : Array Node) (r i : ℕ) :
    ctxOf (setRootGrad a r) i = ctxOf a i := by
  unfold setRootGrad
  by_cases h : i = r
  · subst h
    by_cases hlt : i < a.size
    · unfold ctxOf
      rw [nodeAt_setD_self _ _ _ hlt]
    · rw [show a.setD i _ = a from by unfold Array.setD; rw [dif_neg hlt]]
  · unfold ctxOf
    rw [nodeAt_setD_ne _ _ _ _ h]

theorem ctxOf_runFold (l : List ℕ) :
    ∀ (a : Array Node) (i : ℕ),
      ctxOf (l.foldl applyCtx a) i = ctxOf a i := by
  induction l with
  | nil => intro a i; rfl
  | cons u rest ih =>
    intro a i
    rw [List.foldl_cons, ih, ctxOf_applyCtx]

theorem runFold_size (l : List ℕ) :
    ∀ a : Array Node, (l.foldl applyCtx a).size = a.size := by
  induction l with
  | nil => intro a; rfl
  | cons u rest ih =>
    intro a
    rw [List.foldl_cons, ih, applyCtx_size]

theorem ctxOf_backwardRun (a : Array Node) (l : List ℕ) (r i : ℕ) :
    ctxOf (backwardRun a l r) i = ctxOf a i := by
  unfold backwardRun
  rw [ctxOf_runFold, ctxOf_setRootGrad]

theorem backwardRun_size (a : Array Node) (l : List ℕ) (r : ℕ) :
    (backwardRun a l r).size = a.size := by
  unfold backwardRun
  rw [runFold_size, setRootGrad_size]

theorem inputsOf_congr {a b : Array Node} {i : ℕ}
    (h : ctxOf b i = ctxOf a i) : inputsOf b i = inputsOf a i := by
  unfold inputsOf
  rw [h]

theorem gwf_of_ctx_eq {a b : Array Node}
    (hc : ∀ i, ctxOf b i = ctxOf a i) (hs : b.size = a.size)
    (hw : GWF a) : GWF b := by
  intro i hi j hj
  rw [inputsOf_congr (hc i)] at hj
  exact hw i (hs ▸ hi) j hj

theorem gwf_backwardRun {a : Array Node} (hw : GWF a) (l : List ℕ)
    (r : ℕ) : GWF (backwardRun a l r) :=
  gwf_of_ctx_eq (fun i => ctxOf_backwardRun a l r i)
    (backwardRun_size a l r) hw

/-! The concrete two-level graph for the double-`backward()` claim:
parameter `w = [1]` (slot 0), `y = w.mul(w)` (slot 1, with the two
accumulations the `Ops.mul` closure performs for its duplicated input) and
`loss = y.sum()` (slot 2, the `Ops.sum` closure). -/

def dblA : Array Node :=
  #[⟨#[qv 1], [1], true, some #[0], 0, none⟩,
    ⟨#[qv 1], [1], true, some #[0], 1,
      some ⟨[0, 0], fun up =>
        [(0, mulBackA ⟨#[qv 1], [1], true⟩ ⟨#[qv 1], [1], true⟩ up),
         (0, mulBackB ⟨#[qv 1], [1], true⟩ ⟨#[qv 1], [1], true⟩ up)]⟩⟩,
    ⟨#[qv 1], [1], true, some #[0], 2,
      some ⟨[1], fun up => [(1, sumBackDelta 1 up)]⟩⟩]

theorem dblA_wf : GWF dblA := by
  unfold GWF
  decide

/-- The arena after the first `backward()` call on the loss. -/
def dblA1 : Array Node := backwardRun dblA [1, 2] 2

theorem dblA1_wf : GWF dblA1 := gwf_backwardRun dblA_wf [1, 2] 2

theorem dblA_sorted : backwardSorted dblA dblA_wf 2 = [1, 2] := by
  simp [backwardSorted, dfsVisit, dfsList, ctxOf, nodeAt, inputsOf,
    Array.getD, dblA]

end Slmnet

namespace Slmnet

theorem accGrad_size (g δ : Array ℚ) : (accGrad g δ).size = g.size := by
  unfold accGrad
  simp

theorem getD_oob {α : Type} (g : Array α) (t : ℕ) (d : α)
    (h : ¬ t < g.size) : g.getD t d = d := by
  unfold Array.getD
  rw [dif_neg h]

/-- Equality of two tensor objects up to the gradient values: the reverse
pass only rewrites gradient buffers in place, keeping their presence and
length and every other field. -/
structure SkelEq (x y : Node) : Prop where
  data : x.data = y.data
  shape : x.shape = y.shape
  rg : x.requires_grad = y.requires_grad
  owner : x.gradOwner = y.gradOwner
  ctx : x.ctx = y.ctx
  gnone : x.grad = none ↔ y.grad = none
  gsize : ∀ g h, x.grad = some g → y.grad = some h → g.size = h.size

theorem skelEq_refl (x : Node) : SkelEq x x :=
  ⟨rfl, rfl, rfl, rfl, rfl, Iff.rfl, fun g h hg hh => by
    rw [hg, Option.some.injEq] at hh
    rw [hh]⟩

theorem skelEq_of_eq {x y : Node} (h : x = y) : SkelEq x y :=
  h ▸ skelEq_refl x

theorem skelEq_symm {x y : Node} (h : SkelEq x y) : SkelEq y x :=
  ⟨h.data.symm, h.shape.symm, h.rg.symm, h.owner.symm, h.ctx.symm,
    h.gnone.symm, fun g g2 hg hg2 => (h.gsize g2 g hg2 hg).symm⟩

theorem skelEq_trans {x y z : Node} (h1 : SkelEq x y) (h2 : SkelEq y z) :
    SkelEq x z := by
  refine ⟨h1.data.trans h2.data, h1.shape.trans h2.shape,
    h1.rg.trans h2.rg, h1.owner.trans h2.owner, h1.ctx.trans h2.ctx,
    h1.gnone.trans h2.gnone, ?_⟩
  intro g h hg hh
  cases hy : y.grad with
  | none =>
    rw [h1.gnone.mpr hy] at hg
    cases hg
  | some gm =>
    exact (h1.gsize g gm hg hy).trans (h2.gsize gm h hy hh)

theorem skel_addIntoGrad (a : Array Node) (p : ℕ) (δ : Array ℚ) (i : ℕ) :
    SkelEq (nodeAt (addIntoGrad a p δ) i) (nodeAt a i) := by
  rcases addIntoGrad_cases a p δ i with h | ⟨g, hg, h, _⟩
  · exact skelEq_of_eq h
  · rw [h]
    refine ⟨rfl, rfl, rfl, rfl, rfl, ?_, ?_⟩
    · rw [hg]
      simp
    · intro g1 h1 hg1 hh1
      rw [hg] at hh1
      rw [Option.some.injEq] at hg1 hh1
      rw [← hg1, ← hh1, accGrad_size]

theorem skel_contribFold (ins : List ℕ) (l : List (ℕ × Array ℚ)) :
    ∀ (a : Array Node) (i : ℕ),
      SkelEq (nodeAt (l.foldl (fun acc pd =>
        if pd.1 ∈ ins then addIntoGrad acc pd.1 pd.2 else acc) a) i)
        (nodeAt a i) := by
  induction l with
  | nil =>
    intro a i
    exact skelEq_refl _
  | cons pd rest ih =>
    intro a i
    rw [List.foldl_cons]
    refine skelEq_trans (ih _ i) ?_
    split
    · exact skel_addIntoGrad a pd.1 pd.2 i
    · exact skelEq_refl _

theorem skel_applyCtx (a : Array Node) (u i : ℕ) :
    SkelEq (nodeAt (applyCtx a u) i) (nodeAt a i) := by
  unfold applyCtx
  split
  · exact skelEq_refl _
  · exact skel_contribFold _ _ a i

theorem skel_runFold (l : List ℕ) :
    ∀ (a : Array Node) (i : ℕ),
      SkelEq (nodeAt (l.foldl applyCtx a) i) (nodeAt a i) := by
  induction l with
  | nil =>
    intro a i
    exact skelEq_refl _
  | cons u rest ih =>
    intro a i
    rw [List.foldl_cons]
    exact skelEq_trans (ih _ i) (skel_applyCtx a u i)

theorem nodeAt_setRootGrad_ne (a : Array Node) (r i : ℕ) (h : i ≠ r) :
    nodeAt (setRootGrad a r) i = nodeAt a i := by
  unfold setRootGrad
  exact nodeAt_setD_ne _ _ _ _ h

theorem nodeAt_setRootGrad_self (a : Array Node) (r : ℕ) (hr : r < a.size) :
    nodeAt (setRootGrad a r) r =
      ⟨(nodeAt a r).data, (nodeAt a r).shape, (nodeAt a r).requires_grad,
        some (onesQ (nodeAt a r).shape.prod), r, (nodeAt a r).ctx⟩ := by
  unfold setRootGrad
  exact nodeAt_setD_self _ _ _ hr

theorem skel_backwardRun_setRoot (a : Array Node) (l : List ℕ) (r i : ℕ) :
    SkelEq (nodeAt (backwardRun a l r) i) (nodeAt (setRootGrad a r) i) := by
  unfold backwardRun
  exact skel_runFold _ _ i

theorem addIntoGrad_noop_rg (a : Array Node) (p : ℕ) (δ : Array ℚ)
    (h : ¬ (nodeAt a p).requires_grad = true) : addIntoGrad a p δ = a := by
  unfold addIntoGrad
  rw [if_neg h]

theorem addIntoGrad_noop_none (a : Array Node) (p : ℕ) (δ : Array ℚ)
    (h : (nodeAt a ((nodeAt a p).gradOwner)).grad = none) :
    addIntoGrad a p δ = a := by
  unfold addIntoGrad
  split
  · simp only [h]
  · rfl

theorem gradBufOf_setD_grad (a : Array Node) (o : ℕ) (ho : o < a.size)
    (g2 : Array ℚ) (j : ℕ) :
    gradBufOf (a.setD o
      ⟨(nodeAt a o).data, (nodeAt a o).shape, (nodeAt a o).requires_grad,
        some g2, (nodeAt a o).gradOwner, (nodeAt a o).ctx⟩) j =
      if (nodeAt a j).gradOwner = o then g2 else gradBufOf a j := by
  have hsd := nodeAt_setD_self a o
    ⟨(nodeAt a o).data, (nodeAt a o).shape, (nodeAt a o).requires_grad,
      some g2, (nodeAt a o).gradOwner, (nodeAt a o).ctx⟩ ho
  have howj : (nodeAt (a.setD o
      ⟨(nodeAt a o).data, (nodeAt a o).shape, (nodeAt a o).requires_grad,
        some g2, (nodeAt a o).gradOwner, (nodeAt a o).ctx⟩) j).gradOwner
      = (nodeAt a j).gradOwner := by
    by_cases hje : j = o
    · rw [hje, hsd]
    · rw [nodeAt_setD_ne _ _ _ _ hje]
  unfold gradBufOf
  rw [howj]
  by_cases hj : (nodeAt a j).gradOwner = o
  · rw [if_pos hj, hj, hsd]
  · rw [if_neg hj, nodeAt_setD_ne _ _ _ _ hj]

theorem addIntoGrad_grad_eq (a : Array Node) (p : ℕ) (δ : Array ℚ)
    (hrg : (nodeAt a p).requires_grad = true) (g : Array ℚ)
    (hg : (nodeAt a ((nodeAt a p).gradOwner)).grad = some g) (j : ℕ) :
    gradBufOf (addIntoGrad a p δ) j =
      if (nodeAt a j).gradOwner = (nodeAt a p).gradOwner then accGrad g δ
      else gradBufOf a j := by
  have ho : (nodeAt a p).gradOwner < a.size := by
    by_contra hlt
    rw [nodeAt_out a _ hlt] at hg
    cases hg
  have hstep : addIntoGrad a p δ = a.setD ((nodeAt a p).gradOwner)
      ⟨(nodeAt a ((nodeAt a p).gradOwner)).data,
       (nodeAt a ((nodeAt a p).gradOwner)).shape,
       (nodeAt a ((nodeAt a p).gradOwner)).requires_grad,
       some (accGrad g δ),
       (nodeAt a ((nodeAt a p).gradOwner)).gradOwner,
       (nodeAt a ((nodeAt a p).gradOwner)).ctx⟩ := by
    unfold addIntoGrad
    rw [if_pos hrg]
    simp only [hg]
  rw [hstep, gradBufOf_setD_grad a _ ho (accGrad g δ) j]

theorem accGrad_getD (g δ : Array ℚ) (t : ℕ) :
    (accGrad g δ).getD t 0 =
      if t < g.size then g.getD t 0 + δ.getD t 0 else 0 := by
  by_cases ht : t < g.size
  · rw [if_pos ht]
    unfold accGrad
    rw [ofFn_getD _ t 0 ht]
  · rw [if_neg ht]
    apply getD_oob
    rw [accGrad_size]
    exact ht

theorem addIntoGrad_shift (b b' : Array Node)
    (hsk : ∀ q, SkelEq (nodeAt b' q) (nodeAt b q)) (p : ℕ) (δ : Array ℚ)
    (j t : ℕ) :
    (gradBufOf (addIntoGrad b' p δ) j).getD t 0 +
      (gradBufOf b j).getD t 0 =
    (gradBufOf (addIntoGrad b p δ) j).getD t 0 +
      (gradBufOf b' j).getD t 0 := by
  by_cases hrg : (nodeAt b p).requires_grad = true
  · cases hg : (nodeAt b ((nodeAt b p).gradOwner)).grad with
    | none =>
      have hg' : (nodeAt b' ((nodeAt b' p).gradOwner)).grad = none := by
        rw [(hsk p).owner]
        exact ((hsk ((nodeAt b p).gradOwner)).gnone).mpr hg
      rw [addIntoGrad_noop_none b p δ hg, addIntoGrad_noop_none b' p δ hg']
      ring
    | some g =>
      have hsome' : ¬ (nodeAt b' ((nodeAt b' p).gradOwner)).grad = none := by
        rw [(hsk p).owner]
        intro hn
        rw [((hsk ((nodeAt b p).gradOwner)).gnone).mp hn] at hg
        cases hg
      cases hg' : (nodeAt b' ((nodeAt b' p).gradOwner)).grad with
      | none => exact absurd hg' hsome'
      | some g' =>
        have hrg' : (nodeAt b' p).requires_grad = true := by
          rw [(hsk p).rg]
          exact hrg
        have hss : g'.size = g.size := by
          refine (hsk ((nodeAt b p).gradOwner)).gsize g' g ?_ hg
          rw [← (hsk p).owner]
          exact hg'
        rw [addIntoGrad_grad_eq b p δ hrg g hg j,
            addIntoGrad_grad_eq b' p δ hrg' g' hg' j]
        have hcnd : ((nodeAt b' j).gradOwner = (nodeAt b' p).gradOwner) ↔
            ((nodeAt b j).gradOwner = (nodeAt b p).gradOwner) := by
          rw [(hsk j).owner, (hsk p).owner]
        by_cases hcj : (nodeAt b j).gradOwner = (nodeAt b p).gradOwner
        · rw [if_pos hcj, if_pos (hcnd.mpr hcj)]
          have hbj : gradBufOf b j = g := by
            unfold gradBufOf
            rw [hcj, hg]
          have hbj' : gradBufOf b' j = g' := by
            unfold gradBufOf
            rw [hcnd.mpr hcj, hg']
          rw [hbj, hbj', accGrad_getD, accGrad_getD, hss]
          by_cases ht : t < g.size
          · rw [if_pos ht, if_pos ht]
            ring
          · rw [if_neg ht, if_neg ht, getD_oob g t 0 ht,
                getD_oob g' t 0 (by rw [hss]; exact ht)]
        · rw [if_neg hcj, if_neg (fun hx => hcj (hcnd.mp hx))]
          ring
  · have hrg' : ¬ (nodeAt b' p).requires_grad = true := by
      rw [(hsk p).rg]
      exact hrg
    rw [addIntoGrad_noop_rg b p δ hrg, addIntoGrad_noop_rg b' p δ hrg']
    ring

theorem skel_pair_addIntoGrad {b b' : Array Node}
    (hsk : ∀ q, SkelEq (nodeAt b' q) (nodeAt b q)) (p : ℕ) (δ : Array ℚ) :
    ∀ q, SkelEq (nodeAt (addIntoGrad b' p δ) q)
      (nodeAt (addIntoGrad b p δ) q) :=
  fun q => skelEq_trans (skel_addIntoGrad b' p δ q)
    (skelEq_trans (hsk q) (skelEq_symm (skel_addIntoGrad b p δ q)))

/-- The increment a backward closure's contribution list adds to any
gradient-buffer entry does not depend on the values already stored in the
buffers, only on the skeleton (flags, owners, buffer presence and
lengths): running the same list from two skeleton-equal states adds the
same amount to each entry. -/
theorem contribFold_shift (ins : List ℕ) (l : List (ℕ × Array ℚ)) :
    ∀ (b b' : Array Node), (∀ q, SkelEq (nodeAt b' q) (nodeAt b q)) →
      ∀ j t,
        (gradBufOf (l.foldl (fun acc pd =>
          if pd.1 ∈ ins then addIntoGrad acc pd.1 pd.2 else acc) b') j).getD
            t 0 + (gradBufOf b j).getD t 0 =
        (gradBufOf (l.foldl (fun acc pd =>
          if pd.1 ∈ ins then addIntoGrad acc pd.1 pd.2 else acc) b) j).getD
            t 0 + (gradBufOf b' j).getD t 0 := by
  induction l with
  | nil =>
    intro b b' hsk j t
    rw [List.foldl_nil, List.foldl_nil]
    ring
  | cons pd rest ih =>
    intro b b' hsk j t
    by_cases hin : pd.1 ∈ ins
    · simp only [List.foldl_cons, hin, if_true]
      have h1 := ih (addIntoGrad b pd.1 pd.2) (addIntoGrad b' pd.1 pd.2)
        (skel_pair_addIntoGrad hsk pd.1 pd.2) j t
      have h2 := addIntoGrad_shift b b' hsk pd.1 pd.2 j t
      linarith
    · simp only [List.foldl_cons, hin, if_false]
      exact ih b b' hsk j t

theorem applyCtx_some {a : Array Node} {u : ℕ} {c : Ctx}
    (h : ctxOf a u = some c) :
    applyCtx a u = (c.back (gradBufOf a u)).foldl
      (fun acc pd => if pd.1 ∈ c.inputs then addIntoGrad acc pd.1 pd.2
        else acc) a := by
  unfold applyCtx
  rw [h]

theorem nodup_all_eq_single {l : List ℕ} {r : ℕ} (hnd : l.Nodup)
    (hr : r ∈ l) (hall : ∀ x ∈ l, x = r) : l = [r] := by
  cases l with
  | nil => cases hr
  | cons x t =>
    have hx : x = r := hall x (List.mem_cons_self x t)
    subst hx
    have ht : t = [] := by
      cases t with
      | nil => rfl
      | cons y s =>
        have hy : y = x := hall y (List.mem_cons_of_mem _
          (List.mem_cons_self y s))
        rw [List.nodup_cons] at hnd
        apply absurd ?_ hnd.1
        rw [← hy]
        exact List.mem_cons_self y s
    rw [ht]

/-- When the root is the only node of the arena carrying a context, the
depth-first traversal produces the singleton list `[r]`. -/
theorem sorted_single (a : Array Node) (hw : GWF a) (r : ℕ)
    (hctx : hasCtx a r) (honly : ∀ i, i ≠ r → ctxOf a i = none) :
    backwardSorted a hw r = [r] := by
  have hInv0 : DfsInv a [] ([], []) := by
    refine ⟨List.nodup_nil, ?_, ?_, ?_, ?_, ?_⟩ <;>
      first
        | (intro u hu; cases hu)
        | (intro u hu v hv; cases hu)
  have hspec := dfsVisit_spec a hw r [] ([], []) hInv0
    (fun s hs => absurd hs (List.not_mem_nil s))
  have hrin : r ∈ (dfsVisit a hw ([], []) r).2 :=
    (hspec.1.complete r hspec.2.2.2.1 (List.not_mem_nil r)).1 hctx
  have hall : ∀ x ∈ (dfsVisit a hw ([], []) r).2, x = r := by
    intro x hx
    by_contra hne
    have hcx := hspec.1.hctx x hx
    unfold hasCtx at hcx
    rw [honly x hne] at hcx
    cases hcx
  unfold backwardSorted
  exact nodup_all_eq_single hspec.1.nodup hrin hall

/-- C2 (amended): when the scalar root `r` is the only context-bearing
node of the graph (as for the fused cross-entropy rule applied directly on
a parameter product), a second `backward()` without an intervening
`zero_grad()` doubles every other tensor's gradient entries: the traversal
is `[r]` both times, the root's gradient is reset to all-ones both times,
so the closure receives the same upstream gradient and adds the same
contributions on top of those of the first pass. -/
theorem backward_twice_root_only_doubles (a : Array Node) (hw : GWF a)
    (r : ℕ) (hr : r < a.size)
    (hrg : (nodeAt a r).requires_grad = true)
    (hsz : (nodeAt a r).data.size = 1)
    (hctx : hasCtx a r)
    (honly : ∀ i, i ≠ r → ctxOf a i = none)
    (hw1 : GWF (backwardRun a [r] r)) :
    tensorBackward a hw r = some (backwardRun a [r] r) ∧
    tensorBackward (backwardRun a [r] r) hw1 r =
      some (backwardRun (backwardRun a [r] r) [r] r) ∧
    ∀ i, i ≠ r → (nodeAt a i).gradOwner = i →
      ∀ t, (gradBufOf a i).getD t 0 = 0 →
        (gradBufOf (backwardRun (backwardRun a [r] r) [r] r) i).getD t 0 =
          2 * (gradBufOf (backwardRun a [r] r) i).getD t 0 := by
  obtain ⟨c, hc⟩ := Option.isSome_iff_exists.mp hctx
  have hsort := sorted_single a hw r hctx honly
  have hr1 : r < (backwardRun a [r] r).size := by
    rw [backwardRun_size]
    exact hr
  have hskel1 : ∀ p, SkelEq (nodeAt (backwardRun a [r] r) p)
      (nodeAt (setRootGrad a r) p) :=
    fun p => skel_backwardRun_setRoot a [r] r p
  have hroot : nodeAt (setRootGrad a r) r =
      ⟨(nodeAt a r).data, (nodeAt a r).shape, (nodeAt a r).requires_grad,
        some (onesQ (nodeAt a r).shape.prod), r, (nodeAt a r).ctx⟩ :=
    nodeAt_setRootGrad_self a r hr
  have hrg1 : (nodeAt (backwardRun a [r] r) r).requires_grad = true := by
    rw [(hskel1 r).rg, hroot]
    exact hrg
  have hdata1 : (nodeAt (backwardRun a [r] r) r).data =
      (nodeAt a r).data := by
    rw [(hskel1 r).data, hroot]
  have hshape1 : (nodeAt (backwardRun a [r] r) r).shape =
      (nodeAt a r).shape := by
    rw [(hskel1 r).shape, hroot]
  have hsz1 : (nodeAt (backwardRun a [r] r) r).data.size = 1 := by
    rw [hdata1]
    exact hsz
  have hctx1 : hasCtx (backwardRun a [r] r) r := by
    unfold hasCtx
    rw [ctxOf_backwardRun]
    exact hctx
  have honly1 : ∀ i, i ≠ r → ctxOf (backwardRun a [r] r) i = none := by
    intro i hi
    rw [ctxOf_backwardRun]
    exact honly i hi
  have hsort1 := sorted_single (backwardRun a [r] r) hw1 r hctx1 honly1
  refine ⟨?_, ?_, ?_⟩
  · unfold tensorBackward
    rw [if_pos hrg, if_pos hsz, hsort]
  · unfold tensorBackward
    rw [if_pos hrg1, if_pos hsz1, hsort1]
  · intro i hir howni t hz
    have hcb : ctxOf (setRootGrad a r) r = some c := by
      rw [ctxOf_setRootGrad]
      exact hc
    have hcb2 : ctxOf (setRootGrad (backwardRun a [r] r) r) r = some c := by
      rw [ctxOf_setRootGrad, ctxOf_backwardRun]
      exact hc
    have hub : gradBufOf (setRootGrad a r) r =
        onesQ (nodeAt a r).shape.prod := gradBufOf_setRoot a r hr
    have hub2 : gradBufOf (setRootGrad (backwardRun a [r] r) r) r =
        onesQ (nodeAt a r).shape.prod := by
      rw [gradBufOf_setRoot _ r hr1, hshape1]
    have hA1 : backwardRun a [r] r =
        (c.back (onesQ (nodeAt a r).shape.prod)).foldl
          (fun acc pd => if pd.1 ∈ c.inputs then addIntoGrad acc pd.1 pd.2
            else acc) (setRootGrad a r) := by
      show applyCtx (setRootGrad a r) r = _
      rw [applyCtx_some hcb, hub]
    have hA2 : backwardRun (backwardRun a [r] r) [r] r =
        (c.back (onesQ (nodeAt a r).shape.prod)).foldl
          (fun acc pd => if pd.1 ∈ c.inputs then addIntoGrad acc pd.1 pd.2
            else acc) (setRootGrad (backwardRun a [r] r) r) := by
      show applyCtx (setRootGrad (backwardRun a [r] r) r) r = _
      rw [applyCtx_some hcb2, hub2]
    have hskb : ∀ p, SkelEq
        (nodeAt (setRootGrad (backwardRun a [r] r) r) p)
        (nodeAt (setRootGrad a r) p) := by
      intro p
      by_cases hpr : p = r
      · subst hpr
        rw [nodeAt_setRootGrad_self _ _ hr1, hroot]
        refine ⟨hdata1, hshape1, ?_, rfl, ?_, ?_, ?_⟩
        · rw [hrg1, hrg]
        · rw [(hskel1 p).ctx, hroot]
        · simp
        · intro g h hgg hhh
          rw [Option.some.injEq] at hgg hhh
          rw [← hgg, ← hhh]
          unfold onesQ
          rw [Array.size_mkArray, Array.size_mkArray, hshape1]
      · rw [nodeAt_setRootGrad_ne _ _ _ hpr]
        rw [nodeAt_setRootGrad_ne a r p hpr]
        exact skelEq_trans (hskel1 p)
          (skelEq_of_eq (nodeAt_setRootGrad_ne a r p hpr))
    have hshift := contribFold_shift c.inputs
        (c.back (onesQ (nodeAt a r).shape.prod))
        (setRootGrad a r) (setRootGrad (backwardRun a [r] r) r) hskb i t
    rw [← hA1, ← hA2] at hshift
    have hgbb : gradBufOf (setRootGrad a r) i = gradBufOf a i := by
      unfold gradBufOf
      rw [nodeAt_setRootGrad_ne a r i hir, howni,
        nodeAt_setRootGrad_ne a r i hir]
    have hown1 : (nodeAt (backwardRun a [r] r) i).gradOwner = i := by
      rw [(hskel1 i).owner, nodeAt_setRootGrad_ne a r i hir, howni]
    have hgbb2 : gradBufOf (setRootGrad (backwardRun a [r] r) r) i =
        gradBufOf (backwardRun a [r] r) i := by
      unfold gradBufOf
      rw [nodeAt_setRootGrad_ne _ r i hir, hown1,
        nodeAt_setRootGrad_ne _ r i hir]
    rw [hgbb, hgbb2, hz] at hshift
    linarith

/-- The arena for the amended-claim witness: parameter `w` (slot 0) and a
scalar root (slot 1) whose context passes its upstream gradient straight
to `w`, the root being the only context-bearing node. -/
def wArena : Array Node :=
  #[⟨#[qv 4], [1], true, some #[0], 0, none⟩,
    ⟨#[qv 4], [1], true, some #[0], 1, some ⟨[0], fun up => [(0, up)]⟩⟩]

/-- Witness for the amended double-backward law: on `wArena` the second
`backward()` doubles `w.grad`. -/
theorem backward_twice_root_only_doubles_witness :
    GWF wArena ∧
    (gradBufOf (backwardRun (backwardRun wArena [1] 1) [1] 1) 0).getD 0 0 =
      2 * (gradBufOf (backwardRun wArena [1] 1) 0).getD 0 0 := by
  have hwf : GWF wArena := by
    unfold GWF
    decide
  have honly : ∀ i, i ≠ 1 → ctxOf wArena i = none := by
    intro i hi
    match i, hi with
    | 0, _ => rfl
    | n+2, _ =>
      show (wArena.getD (n+2) dNode).ctx = none
      unfold Array.getD
      rw [dif_neg (by rw [show wArena.size = 2 from rfl]; omega)]
      rfl
  refine ⟨hwf, ?_⟩
  exact (backward_twice_root_only_doubles wArena hwf 1 (by decide) rfl rfl
    rfl honly (gwf_backwardRun hwf [1] 1)).2.2 0 (by decide) rfl 0 rfl

theorem dblA1_sorted : backwardSorted dblA1 dblA1_wf 2 = [1, 2] := by
  simp [dblA1, backwardRun, setRootGrad, applyCtx, addIntoGrad, gradBufOf,
    nodeAt, ctxOf, Array.getD, Array.setD, dblA, accGrad, onesQ,
    sumBackDelta, mulBackA, mulBackB, toQ, qv, zeros, Array.mkArray,
    backwardSorted, dfsVisit, dfsList, inputsOf]

theorem dblA1_rg : (nodeAt dblA1 2).requires_grad = true := by
  simp [dblA1, backwardRun, setRootGrad, applyCtx, addIntoGrad, gradBufOf,
    nodeAt, ctxOf, Array.getD, Array.setD, dblA, accGrad, onesQ,
    sumBackDelta, mulBackA, mulBackB, toQ, qv, zeros, Array.mkArray]

theorem dblA1_sz : (nodeAt dblA1 2).data.size = 1 := by
  simp [dblA1, backwardRun, setRootGrad, applyCtx, addIntoGrad, gradBufOf,
    nodeAt, ctxOf, Array.getD, Array.setD, dblA, accGrad, onesQ,
    sumBackDelta, mulBackA, mulBackB, toQ, qv, zeros, Array.mkArray]

set_option maxHeartbeats 2000000 in
/-- C2 counterexample: on `loss = (w * w).sum()` with `w = [1]`, the first
`backward()` stores `w.grad = [2]`; a second `backward()` without
`zero_grad()` yields `w.grad = [6]`, not the doubled `[4]` the claim
demands: the intermediate product tensor keeps its accumulated gradient
`1` from the first pass, so during the second pass its closure runs with
upstream `2` instead of `1`. -/
theorem backward_twice_counterexample :
    tensorBackward dblA dblA_wf 2 = some dblA1 ∧
    (gradBufOf dblA1 0).getD 0 0 = 2 ∧
    tensorBackward dblA1 dblA1_wf 2 = some (backwardRun dblA1 [1, 2] 2) ∧
    (gradBufOf (backwardRun dblA1 [1, 2] 2) 0).getD 0 0 = 6 ∧
    (gradBufOf (backwardRun dblA1 [1, 2] 2) 0).getD 0 0 ≠
      2 * (gradBufOf dblA1 0).getD 0 0 := by
  have h2 : (gradBufOf dblA1 0).getD 0 0 = 2 := by
    simp [dblA1, backwardRun, setRootGrad, applyCtx, addIntoGrad, gradBufOf,
      nodeAt, ctxOf, Array.getD, Array.setD, dblA, accGrad, onesQ,
      sumBackDelta, mulBackA, mulBackB, toQ, qv, zeros, Array.mkArray]
    norm_num
  have h6 : (gradBufOf (backwardRun dblA1 [1, 2] 2) 0).getD 0 0 = 6 := by
    simp [dblA1, backwardRun, setRootGrad, applyCtx, addIntoGrad, gradBufOf,
      nodeAt, ctxOf, Array.getD, Array.setD, dblA, accGrad, onesQ,
      sumBackDelta, mulBackA, mulBackB, toQ, qv, zeros, Array.mkArray]
    norm_num
  refine ⟨?_, h2, ?_, h6, ?_⟩
  · unfold tensorBackward
    rw [if_pos (show (nodeAt dblA 2).requires_grad = true from rfl),
      if_pos (show (nodeAt dblA 2).data.size = 1 from rfl), dblA_sorted]
    rfl
  · unfold tensorBackward
    rw [if_pos dblA1_rg, if_pos dblA1_sz, dblA1_sorted]
  · rw [h6, h2]
    norm_num

end Slmnet

namespace Slmnet

/-- Backward contribution of `Ops.dot` into `a.grad` (Ops.js lines
224-236): `grad_A[i*colsA + j] += Σ_{k < colsB} upstream[i*colsB + k] *
b[j*colsB + k]` (the formula `grad_A = upstream · Bᵀ`). -/
def dotBackA (a b : TBuf) (up : Array ℚ) : Array ℚ :=
  match a.shape, b.shape with
  | [rA, cA], [_, cB] =>
    Array.ofFn fun idx : Fin (rA * cA) =>
      ∑ k ∈ Finset.range cB,
        up.getD ((idx : ℕ) / cA * cB + k) 0 *
          toQ (b.data.getD ((idx : ℕ) % cA * cB + k) ⊥)
  | _, _ => #[]

/-- Backward contribution of `Ops.dot` into `b.grad` (Ops.js lines
239-251): `grad_B[i*colsB + j] += Σ_{k < rowsA} a[k*colsA + i] *
upstream[k*colsB + j]` (the formula `grad_B = Aᵀ · upstream`). -/
def dotBackB (a b : TBuf) (up : Array ℚ) : Array ℚ :=
  match a.shape, b.shape with
  | [rA, cA], [rB, cB] =>
    Array.ofFn fun idx : Fin (rB * cB) =>
      ∑ k ∈ Finset.range rA,
        toQ (a.data.getD (k * cA + (idx : ℕ) / cB) ⊥) *
          up.getD (k * cB + (idx : ℕ) % cB) 0
  | _, _ => #[]

/-! The object trace of `MultiHeadAttention.forward` at `embedding_dim =
1`, `num_heads = 1` (`head_dim = 1`), `seq_len = 1`, on `x = [[2]]` with
weights `wq = [[3]]`, `wk = [[5]]`, `wv = [[7]]`, `wo = [[11]]` (no-bias
Dense layers, i.e. plain `dot`).  Slots follow creation order:

* 0-4: the leaves `x` and the four weight tensors (`requires_grad = true`,
  zeroed gradients);
* 5-7: `Q = x·wq = [6]`, `K = x·wk = [10]`, `V = x·wv = [14]` — `Ops.dot`
  attaches a context with the two closures above;
* 8-10: the `reshape` views `q_heads`/`k_heads`/`v_heads` (modelled from
  the spec, the v2 `reshape` source being absent: pure metadata aliases of
  their sources' buffers — `gradOwner` is the source slot — carrying no
  context);
* 11-13: `q`/`k`/`v` from `_get_head` — fresh `new Tensor(head_data,
  [seq_len, head_dim])`, so `requires_grad = false`, `grad = null`, no
  context;
* 14: `k.transpose()` = `new Tensor(transposedData, [cols, rows])`, no
  context, `requires_grad = false`;
* 15: `scores = q.dot(kT) = [60]` — both operands have `requires_grad =
  false`, so `Ops.dot` attaches NO context;
* 16: the literal scale tensor `new Tensor([1/sqrt(1)]) = [1]`;
* 17: `scores.mul(scale) = [60]` (no context; the causal-mask loop writes
  nothing for `seq_len = 1`);
* 18: `softmax(scores) = [1]` (no context);
* 19: the head output `attention_weights.dot(v) = [14]` (no context);
* 20: `combined = _combine_heads([head_out], 1) = [14]`:
  `heads_list.some(h => h.requires_grad)` is `false`, so `requires_grad =
  false` and NO context is attached — the differentiable recombination
  rule of lines 452-466 never fires;
* 21: `out = combined.dot(wo) = [154]`, the scalar root: `Ops.dot`
  attaches a context whose inputs are `combined` and `wo.weights`. -/
def mhaA : Array Node :=
  #[⟨#[qv 2], [1, 1], true, some #[0], 0, none⟩,
    ⟨#[qv 3], [1, 1], true, some #[0], 1, none⟩,
    ⟨#[qv 5], [1, 1], true, some #[0], 2, none⟩,
    ⟨#[qv 7], [1, 1], true, some #[0], 3, none⟩,
    ⟨#[qv 11], [1, 1], true, some #[0], 4, none⟩,
    ⟨#[qv 6], [1, 1], true, some #[0], 5,
      some ⟨[0, 1], fun up =>
        [(0, dotBackA ⟨#[qv 2], [1, 1], true⟩ ⟨#[qv 3], [1, 1], true⟩ up),
         (1, dotBackB ⟨#[qv 2], [1, 1], true⟩ ⟨#[qv 3], [1, 1], true⟩
           up)]⟩⟩,
    ⟨#[qv 10], [1, 1], true, some #[0], 6,
      some ⟨[0, 2], fun up =>
        [(0, dotBackA ⟨#[qv 2], [1, 1], true⟩ ⟨#[qv 5], [1, 1], true⟩ up),
         (2, dotBackB ⟨#[qv 2], [1, 1], true⟩ ⟨#[qv 5], [1, 1], true⟩
           up)]⟩⟩,
    ⟨#[qv 14], [1, 1], true, some #[0], 7,
      some ⟨[0, 3], fun up =>
        [(0, dotBackA ⟨#[qv 2], [1, 1], true⟩ ⟨#[qv 7], [1, 1], true⟩ up),
         (3, dotBackB ⟨#[qv 2], [1, 1], true⟩ ⟨#[qv 7], [1, 1], true⟩
           up)]⟩⟩,
    ⟨#[qv 6], [1, 1, 1], true, none, 5, none⟩,
    ⟨#[qv 10], [1, 1, 1], true, none, 6, none⟩,
    ⟨#[qv 14], [1, 1, 1], true, none, 7, none⟩,
    ⟨#[qv 6], [1, 1], false, none, 11, none⟩,
    ⟨#[qv 10], [1, 1], false, none, 12, none⟩,
    ⟨#[qv 14], [1, 1], false, none, 13, none⟩,
    ⟨#[qv 10], [1, 1], false, none, 14, none⟩,
    ⟨#[qv 60], [1, 1], false, none, 15, none⟩,
    ⟨#[qv 1], [1], false, none, 16, none⟩,
    ⟨#[qv 60], [1, 1], false, none, 17, none⟩,
    ⟨#[qv 1], [1, 1], false, none, 18, none⟩,
    ⟨#[qv 14], [1, 1], false, none, 19, none⟩,
    ⟨#[qv 14], [1, 1], false, none, 20, none⟩,
    ⟨#[qv 154], [1, 1], true, some #[0], 21,
      some ⟨[20, 4], fun up =>
        [(20, dotBackA ⟨#[qv 14], [1, 1], false⟩ ⟨#[qv 11], [1, 1], true⟩
           up),
         (4, dotBackB ⟨#[qv 14], [1, 1], false⟩ ⟨#[qv 11], [1, 1], true⟩
           up)]⟩⟩]

theorem mhaA_wf : GWF mhaA := by
  unfold GWF
  decide

set_option maxHeartbeats 2000000 in
theorem mhaA_sorted : backwardSorted mhaA mhaA_wf 21 = [21] := by
  simp [backwardSorted, dfsVisit, dfsList, ctxOf, nodeAt, inputsOf,
    Array.getD, mhaA]


theorem qv_mul (a b : ℚ) : qv a * qv b = qv (a * b) :=
  (WithBot.coe_mul a b).symm

theorem qv_inj {a b : ℚ} : qv a = qv b ↔ a = b := WithBot.coe_inj

theorem qv_ne_bot (a : ℚ) : qv a ≠ ⊥ := WithBot.coe_ne_bot

theorem ofFn_one {α : Type} (f : Fin 1 → α) : Array.ofFn f = #[f 0] := rfl

set_option maxHeartbeats 4000000 in
/-- C3 : (refuted — code bug) On the `MultiHeadAttention.forward` object
trace `mhaA` (`embedding_dim = 1`, `num_heads = 1`, `seq_len = 1`,
`x = [[2]]`, `wq = [[3]]`, `wk = [[5]]`, `wv = [[7]]`, `wo = [[11]]`),
whose interior buffers agree with the op-level forward definitions
(`dot`, `headScores`, `softmax` — conjuncts 4-7), the recombined tensor
(slot 20) is NOT a differentiable graph node: `_get_head` builds every
per-head tensor with `requires_grad = false` (conjunct 1), so
`_combine_heads` attaches no context (conjuncts 2-3), and `backward()`
from the scalar output leaves the gradients of `wq`, `wk`, `wv` and of
the `Q` projection at zero while `wo.weights` receives `14`: no gradient
flows back through the Q/K/V projections, contrary to the claim. -/
theorem mha_combine_heads_no_graph :
    (nodeAt mhaA 11).requires_grad = false ∧
    ctxOf mhaA 20 = none ∧
    (nodeAt mhaA 20).requires_grad = false ∧
    (nodeAt mhaA 5).data =
      dotData (nodeAt mhaA 0).data (nodeAt mhaA 1).data 1 1 1 ∧
    (nodeAt mhaA 17).data =
      headScores (nodeAt mhaA 0).data (nodeAt mhaA 1).data
        (nodeAt mhaA 2).data 1 1 1 0 (qv 1) ∧
    softmaxForward (fun _ => 1) ⟨(nodeAt mhaA 17).data, [1, 1], false⟩ =
      some ⟨(nodeAt mhaA 18).data, [1, 1], false⟩ ∧
    (nodeAt mhaA 21).data =
      dotData (nodeAt mhaA 20).data (nodeAt mhaA 4).data 1 1 1 ∧
    tensorBackward mhaA mhaA_wf 21 = some (backwardRun mhaA [21] 21) ∧
    (gradBufOf (backwardRun mhaA [21] 21) 1).getD 0 0 = 0 ∧
    (gradBufOf (backwardRun mhaA [21] 21) 2).getD 0 0 = 0 ∧
    (gradBufOf (backwardRun mhaA [21] 21) 3).getD 0 0 = 0 ∧
    (gradBufOf (backwardRun mhaA [21] 21) 5).getD 0 0 = 0 ∧
    (gradBufOf (backwardRun mhaA [21] 21) 4).getD 0 0 = 14 := by
  refine ⟨rfl, rfl, rfl, ?_, ?_, ?_, ?_, ?_, ?_, ?_, ?_, ?_, ?_⟩
  · show #[qv 6] = dotData #[qv 2] #[qv 3] 1 1 1
    simp [dotData, Array.getD, Finset.sum_range_one, qv_mul, qv_inj,
      ofFn_one]
    norm_num
  · show #[qv 60] = headScores #[qv 2] #[qv 3] #[qv 5] 1 1 1 0 (qv 1)
    simp [headScores, maskData, mulScalarData, dotData, transposeData,
      getHeadData, Array.getD, Finset.sum_range_one, qv_mul, qv_inj,
      ofFn_one]
    norm_num
  · show softmaxForward (fun _ => 1) ⟨#[qv 60], [1, 1], false⟩ =
      some ⟨#[qv 1], [1, 1], false⟩
    simp [softmaxForward, softmaxEntry, sumExpRow, rowMax, eexp,
      List.range_succ, Array.getD, Finset.sum_range_one, qv_ne_bot,
      toQ_qv, qv_inj, ofFn_one]
  · show #[qv 154] = dotData #[qv 14] #[qv 11] 1 1 1
    simp [dotData, Array.getD, Finset.sum_range_one, qv_mul, qv_inj,
      ofFn_one]
    norm_num
  · unfold tensorBackward
    rw [if_pos (show (nodeAt mhaA 21).requires_grad = true from rfl),
      if_pos (show (nodeAt mhaA 21).data.size = 1 from rfl), mhaA_sorted]
  · simp [backwardRun, setRootGrad, applyCtx, addIntoGrad, gradBufOf,
      nodeAt, ctxOf, Array.getD, Array.setD, mhaA, accGrad, onesQ,
      dotBackA, dotBackB, toQ_qv, zeros, Array.mkArray,
      Finset.sum_range_one]
  · simp [backwardRun, setRootGrad, applyCtx, addIntoGrad, gradBufOf,
      nodeAt, ctxOf, Array.getD, Array.setD, mhaA, accGrad, onesQ,
      dotBackA, dotBackB, toQ_qv, zeros, Array.mkArray,
      Finset.sum_range_one]
  · simp [backwardRun, setRootGrad, applyCtx, addIntoGrad, gradBufOf,
      nodeAt, ctxOf, Array.getD, Array.setD, mhaA, accGrad, onesQ,
      dotBackA, dotBackB, toQ_qv, zeros, Array.mkArray,
      Finset.sum_range_one]
  · simp [backwardRun, setRootGrad, applyCtx, addIntoGrad, gradBufOf,
      nodeAt, ctxOf, Array.getD, Array.setD, mhaA, accGrad, onesQ,
      dotBackA, dotBackB, toQ_qv, zeros, Array.mkArray,
      Finset.sum_range_one]
  · simp [backwardRun, setRootGrad, applyCtx, addIntoGrad, gradBufOf,
      nodeAt, ctxOf, Array.getD, Array.setD, mhaA, accGrad, onesQ,
      dotBackA, dotBackB, toQ_qv, zeros, Array.mkArray,
      Finset.sum_range_one]

end Slmnet

namespace Slmnet

theorem contribFold_frame (ins : List ℕ) (l : List (ℕ × Array ℚ)) (j : ℕ) :
    ∀ acc : Array Node, (∀ p, p ∈ ins → (nodeAt acc p).gradOwner ≠ j) →
      nodeAt (l.foldl (fun acc pd =>
        if pd.1 ∈ ins then addIntoGrad acc pd.1 pd.2 else acc) acc) j =
        nodeAt acc j := by
  induction l with
  | nil =>
    intro acc hp
    rfl
  | cons pd rest ih =>
    intro acc hp
    by_cases hin : pd.1 ∈ ins
    · simp only [List.foldl_cons, hin, if_true]
      have hps : ∀ p, p ∈ ins →
          (nodeAt (addIntoGrad acc pd.1 pd.2) p).gradOwner ≠ j := by
        intro p hpmem
        rw [(skel_addIntoGrad acc pd.1 pd.2 p).owner]
        exact hp p hpmem
      rw [ih (addIntoGrad acc pd.1 pd.2) hps]
      exact addIntoGrad_untouched acc pd.1 pd.2 j (Ne.symm (hp pd.1 hin))
    · simp only [List.foldl_cons, hin, if_false]
      exact ih acc hp

theorem applyCtx_frame (a : Array Node) (u j : ℕ)
    (h : ∀ p ∈ inputsOf a u, (nodeAt a p).gradOwner ≠ j) :
    nodeAt (applyCtx a u) j = nodeAt a j := by
  unfold applyCtx
  cases hc : ctxOf a u with
  | none => simp only [hc]
  | some c =>
    simp only [hc]
    apply contribFold_frame
    intro p hpmem
    apply h
    unfold inputsOf
    rw [hc]
    exact hpmem

theorem runFold_frame (j : ℕ) (l : List ℕ) :
    ∀ acc : Array Node,
      (∀ u ∈ l, ∀ p ∈ inputsOf acc u, (nodeAt acc p).gradOwner ≠ j) →
      nodeAt (l.foldl applyCtx acc) j = nodeAt acc j := by
  induction l with
  | nil =>
    intro acc h
    rfl
  | cons u rest ih =>
    intro acc h
    rw [List.foldl_cons]
    have hrest : ∀ v ∈ rest, ∀ p ∈ inputsOf (applyCtx acc u) v,
        (nodeAt (applyCtx acc u) p).gradOwner ≠ j := by
      intro v hv p hp
      rw [inputsOf_congr (ctxOf_applyCtx acc u v)] at hp
      rw [(skel_applyCtx acc u p).owner]
      exact h v (List.mem_cons_of_mem _ hv) p hp
    rw [ih (applyCtx acc u) hrest]
    exact applyCtx_frame acc u j (h u (List.mem_cons_self u rest))

/-- Every member of the depth-first list is reachable from the root and
carries a context. -/
theorem sorted_mem_reach (a : Array Node) (hw : GWF a) (r : ℕ) :
    ∀ u ∈ backwardSorted a hw r, Reach a r u ∧ hasCtx a u := by
  have hInv0 : DfsInv a [] ([], []) := by
    refine ⟨List.nodup_nil, ?_, ?_, ?_, ?_, ?_⟩ <;>
      first
        | (intro u hu; cases hu)
        | (intro u hu v hv; cases hu)
  have hspec := dfsVisit_spec a hw r [] ([], []) hInv0
    (fun s hs => absurd hs (List.not_mem_nil s))
  intro u hu
  refine ⟨?_, hspec.1.hctx u hu⟩
  rcases hspec.2.2.2.2 u (hspec.1.sub u hu) with h | h
  · cases h
  · exact h

/-- C4 : After `backward()` on a scalar root `r`, the gradient buffer of
any tensor `w` that owns its own gradient, is not the root, and is not
the gradient owner of any non-root context input of any node reachable
from the root, is left exactly unchanged (in particular it stays all-zero
when zeroed beforehand).  This is the situation of the `wq`/`wk`/`wv`
weight tensors of `MultiHeadAttention`: the `Q`/`K`/`V` projections that
list them as context inputs are cut off from the root, because
`_get_head` builds every per-head tensor with `requires_grad = false` and
`_combine_heads` consequently attaches no context, so nothing reachable
from the loss names them — on the `mhaA` forward trace (witness) the
zeroed gradients of `wq`, `wk`, `wv` stay zero while `wo.weights`
receives the attention path's only nonzero weight gradient, `14`. -/
theorem mha_qkv_gradient_frame (a : Array Node) (hw : GWF a) (r : ℕ)
    (hrg : (nodeAt a r).requires_grad = true)
    (hsz : (nodeAt a r).data.size = 1)
    (w : ℕ) (hwr : w ≠ r)
    (hownw : (nodeAt a w).gradOwner = w)
    (hfr : ∀ u, Reach a r u → hasCtx a u →
      ∀ p ∈ inputsOf a u, p ≠ r → (nodeAt a p).gradOwner ≠ w) :
    tensorBackward a hw r =
      some (backwardRun a (backwardSorted a hw r) r) ∧
    gradBufOf (backwardRun a (backwardSorted a hw r) r) w =
      gradBufOf a w := by
  have hr : r < a.size := by
    by_contra h
    rw [nodeAt_out a r h] at hsz
    exact absurd hsz (by decide)
  constructor
  · unfold tensorBackward
    rw [if_pos hrg, if_pos hsz]
  · have hframe : ∀ u ∈ (backwardSorted a hw r).reverse,
        ∀ p ∈ inputsOf (setRootGrad a r) u,
          (nodeAt (setRootGrad a r) p).gradOwner ≠ w := by
      intro u hu p hp
      rw [inputsOf_congr (ctxOf_setRootGrad a r u)] at hp
      rw [List.mem_reverse] at hu
      obtain ⟨hre, hctx⟩ := sorted_mem_reach a hw r u hu
      by_cases hpr : p = r
      · rw [hpr, nodeAt_setRootGrad_self a r hr]
        exact Ne.symm hwr
      · rw [nodeAt_setRootGrad_ne a r p hpr]
        exact hfr u hre hctx p hp hpr
    have hnf : nodeAt (backwardRun a (backwardSorted a hw r) r) w =
        nodeAt a w := by
      unfold backwardRun
      rw [runFold_frame w _ (setRootGrad a r) hframe]
      exact nodeAt_setRootGrad_ne a r w hwr
    unfold gradBufOf
    rw [hnf, hownw, hnf]

theorem mhaA_reach (u : ℕ) (hre : Reach mhaA 21 u) :
    u = 21 ∨ u = 20 ∨ u = 4 := by
  induction hre with
  | refl => exact Or.inl rfl
  | @step x v hx hv ih =>
    rcases ih with h | h | h
    · subst h
      rw [show inputsOf mhaA 21 = [20, 4] from rfl] at hv
      simp at hv
      rcases hv with h | h
      · exact Or.inr (Or.inl h)
      · exact Or.inr (Or.inr h)
    · subst h
      rw [show inputsOf mhaA 20 = ([] : List ℕ) from rfl] at hv
      cases hv
    · subst h
      rw [show inputsOf mhaA 4 = ([] : List ℕ) from rfl] at hv
      cases hv

theorem mhaA_frame_cond (w0 : ℕ) (h20 : (nodeAt mhaA 20).gradOwner ≠ w0)
    (h4 : (nodeAt mhaA 4).gradOwner ≠ w0) :
    ∀ u, Reach mhaA 21 u → hasCtx mhaA u →
      ∀ p ∈ inputsOf mhaA u, p ≠ 21 → (nodeAt mhaA p).gradOwner ≠ w0 := by
  intro u hre hctx p hp hne
  rcases mhaA_reach u hre with h | h | h
  · subst h
    rw [show inputsOf mhaA 21 = [20, 4] from rfl] at hp
    simp at hp
    rcases hp with h | h <;> subst h
    · exact h20
    · exact h4
  · subst h
    exact absurd hctx (by unfold hasCtx; decide)
  · subst h
    exact absurd hctx (by unfold hasCtx; decide)

set_option maxHeartbeats 4000000 in
/-- Witness for C4 on the `mhaA` trace: the zeroed gradients of `wq`
(slot 1), `wk` (slot 2) and `wv` (slot 3) are untouched by `backward()`
from the scalar output (slot 21), while `wo.weights` (slot 4) receives
the nonzero gradient `14`. -/
theorem mha_qkv_gradient_frame_witness :
    (GWF mhaA ∧ (nodeAt mhaA 21).requires_grad = true ∧
      (nodeAt mhaA 21).data.size = 1 ∧
      (nodeAt mhaA 1).gradOwner = 1 ∧ (1 : ℕ) ≠ 21) ∧
    gradBufOf (backwardRun mhaA (backwardSorted mhaA mhaA_wf 21) 21) 1 =
      gradBufOf mhaA 1 ∧
    gradBufOf (backwardRun mhaA (backwardSorted mhaA mhaA_wf 21) 21) 2 =
      gradBufOf mhaA 2 ∧
    gradBufOf (backwardRun mhaA (backwardSorted mhaA mhaA_wf 21) 21) 3 =
      gradBufOf mhaA 3 ∧
    gradBufOf mhaA 1 = zeros 1 ∧
    (gradBufOf (backwardRun mhaA (backwardSorted mhaA mhaA_wf 21) 21)
      4).getD 0 0 = 14 := by
  refine ⟨⟨mhaA_wf, rfl, rfl, rfl, by decide⟩, ?_, ?_, ?_, rfl, ?_⟩
  · exact (mha_qkv_gradient_frame mhaA mhaA_wf 21 rfl rfl 1 (by decide)
      rfl (mhaA_frame_cond 1 (by decide) (by decide))).2
  · exact (mha_qkv_gradient_frame mhaA mhaA_wf 21 rfl rfl 2 (by decide)
      rfl (mhaA_frame_cond 2 (by decide) (by decide))).2
  · exact (mha_qkv_gradient_frame mhaA mhaA_wf 21 rfl rfl 3 (by decide)
      rfl (mhaA_frame_cond 3 (by decide) (by decide))).2
  · rw [mhaA_sorted]
    simp [backwardRun, setRootGrad, applyCtx, addIntoGrad, gradBufOf,
      nodeAt, ctxOf, Array.getD, Array.setD, mhaA, accGrad, onesQ,
      dotBackA, dotBackB, toQ_qv, zeros, Array.mkArray,
      Finset.sum_range_one]

end Slmnet
